import Mathlib

/-!
Verification development for the WISDEM cylinder-member section-assembly
engine (`wisdem/commonse/cylinder_member.py`).

The Python code is shallowly embedded: machine floats are idealized as exact
rationals (`ℚ`), the `SortedDict` registry of cross sections becomes a
key-sorted association list, Python exceptions become `Option`/`Except`
results, and in-place object mutation is modelled either by value update or
(where object identity matters, as for `copy.copy` in `add_node`) by an
explicit heap of section objects addressed by numeric ids.
-/

namespace WisdemCyl

/-- Shape-specific dimensions of a cross section: `CircCrossSection` carries
an outer diameter `D`, `RectCrossSection` carries side lengths `a`, `b`. -/
inductive SectionShape
  | circ (D : ℚ)
  | rect (a b : ℚ)
deriving DecidableEq, Repr

/-- Embedding of `CrossSection` (and its `CircCrossSection` /
`RectCrossSection` subclasses, collapsed into the `shape` field):
the per-interval structural record with thickness `t`, area `A`, shear areas
`Asx`, `Asy`, bending inertias `Ixx`, `Iyy`, polar constant `J0`, torsion
constant `TorsC`, moduli `E`, `G`, density `rho` and yield stress `sigy`. -/
structure CrossSection where
  t : ℚ
  A : ℚ
  Asx : ℚ
  Asy : ℚ
  Ixx : ℚ
  Iyy : ℚ
  J0 : ℚ
  TorsC : ℚ
  E : ℚ
  G : ℚ
  rho : ℚ
  sigy : ℚ
  shape : SectionShape
deriving DecidableEq, Repr

/-- Embedding of `SectionShape` update performed by the subclass overrides of
`make_ghost`: `CircCrossSection.make_ghost` sets `D = 1e-2`,
`RectCrossSection.make_ghost` sets `a = b = 1e-2`. -/
def ghostShape : SectionShape → SectionShape
  | .circ _ => .circ (1/100)
  | .rect _ _ => .rect (1/100) (1/100)

/-- Embedding of `CrossSection.make_ghost` (together with the subclass
overrides): thickness, areas, inertias and density collapse to `1e-2`,
stiffness and yield are multiplied by `1e2`, `TorsC` is untouched. -/
def makeGhost (c : CrossSection) : CrossSection :=
  { c with
    t := 1/100
    A := 1/100
    Asx := 1/100
    Asy := 1/100
    Ixx := 1/100
    Iyy := 1/100
    J0 := 1/100
    rho := 1/100
    E := 100 * c.E
    G := 100 * c.G
    sigy := 100 * c.sigy
    shape := ghostShape c.shape }

/-! ### Keyed association lists (the `SortedDict` substrate)

`MemberComplex.sections` is a `sortedcontainers.SortedDict` from axial
position to a `CrossSection` (or `None` at the terminal key).  The embedding
uses a key-sorted association list and mirrors the `SortedDict` primitives
used by the source: `bisect_left`, key membership, item assignment and keyed
lookup. -/

/-- Keys of a keyed association list, in list order. -/
def keysOf {α : Type} (r : List (ℚ × α)) : List ℚ := r.map Prod.fst

/-- The registry keys are strictly increasing (the `SortedDict` invariant). -/
def SortedKeys {α : Type} (r : List (ℚ × α)) : Prop :=
  List.Pairwise (fun p q : ℚ × α => p.1 < q.1) r

/-- Embedding of `SortedDict.bisect_left`: the number of keys strictly below
`s`, which on a sorted key list is the insertion index for `s`. -/
def bisectLeft {α : Type} : List (ℚ × α) → ℚ → ℕ
  | [], _ => 0
  | (k, _) :: t, s => if k < s then bisectLeft t s + 1 else 0

/-- Embedding of `SortedDict` item assignment `d[s] = v`: replace the value
at key `s`, or insert `(s, v)` at its sorted position when absent. -/
def dictSet {α : Type} : List (ℚ × α) → ℚ → α → List (ℚ × α)
  | [], s, v => [(s, v)]
  | (k, w) :: t, s, v =>
    if s < k then (s, v) :: (k, w) :: t
    else if s = k then (s, v) :: t
    else (k, w) :: dictSet t s v

/-- Embedding of keyed lookup `d[s]` (first entry with key `s`). -/
def findVal {α : Type} : List (ℚ × α) → ℚ → Option α
  | [], _ => none
  | (k, v) :: t, s => if s = k then some v else findVal t s

/-- Embedding of the membership test `s in d`. -/
def containsKey {α : Type} (r : List (ℚ × α)) (s : ℚ) : Bool :=
  (keysOf r).contains s

/-- Value stored at the last entry whose key is strictly below `s` (on a
sorted list: at the greatest key below `s`).  This is what
`sections[keys_orig[bisect_left(s) - 1]]` reads. -/
def predVal {α : Type} : List (ℚ × α) → ℚ → Option α
  | [], _ => none
  | (k, v) :: t, s => if k < s then some ((predVal t s).getD v) else none

/-- Value stored at the last entry whose key is at most `s` (on a sorted
list: the section governing axial position `s`). -/
def intervalVal {α : Type} : List (ℚ × α) → ℚ → Option α
  | [], _ => none
  | (k, v) :: t, s => if k ≤ s then some ((intervalVal t s).getD v) else none

/-- Greatest key of a keyed association list (`0` for the empty list). -/
def maxKey {α : Type} : List (ℚ × α) → ℚ
  | [] => 0
  | [(k, _)] => k
  | (k, _) :: p :: t => max k (maxKey (p :: t))

theorem dictSet_ne_nil {α : Type} (r : List (ℚ × α)) (s : ℚ) (v : α) :
    dictSet r s v ≠ [] := by
  cases r with
  | nil => simp [dictSet]
  | cons p t =>
    obtain ⟨k, w⟩ := p
    by_cases h1 : s < k
    · simp [dictSet, h1]
    · by_cases h2 : s = k <;> simp [dictSet, h1, h2]

theorem findVal_dictSet_self {α : Type} (r : List (ℚ × α)) (s : ℚ) (v : α) :
    findVal (dictSet r s v) s = some v := by
  induction r with
  | nil => simp [dictSet, findVal]
  | cons p t ih =>
    obtain ⟨k, w⟩ := p
    by_cases h1 : s < k
    · simp [dictSet, h1, findVal]
    · by_cases h2 : s = k
      · simp [dictSet, h1, h2, findVal]
      · have hks : ¬ s = k := h2
        simp [dictSet, h1, h2, findVal, hks, ih]

theorem findVal_dictSet_ne {α : Type} (r : List (ℚ × α)) (s x : ℚ) (v : α)
    (hx : x ≠ s) : findVal (dictSet r s v) x = findVal r x := by
  induction r with
  | nil => simp [dictSet, findVal, hx]
  | cons p t ih =>
    obtain ⟨k, w⟩ := p
    by_cases h1 : s < k
    · simp [dictSet, h1, findVal, hx]
    · by_cases h2 : s = k
      · subst h2
        simp [dictSet, h1, findVal, hx]
      · simp [dictSet, h1, h2, findVal, ih]

theorem mem_keysOf_iff {α : Type} (r : List (ℚ × α)) (x : ℚ) :
    x ∈ keysOf r ↔ ∃ p ∈ r, p.1 = x := by
  simp [keysOf, List.mem_map]

theorem mem_keysOf_dictSet {α : Type} (r : List (ℚ × α)) (s x : ℚ) (v : α) :
    x ∈ keysOf (dictSet r s v) ↔ x = s ∨ x ∈ keysOf r := by
  induction r with
  | nil => simp [dictSet, keysOf]
  | cons p t ih =>
    obtain ⟨k, w⟩ := p
    by_cases h1 : s < k
    · simp [dictSet, h1, keysOf]
      try tauto
    · by_cases h2 : s = k
      · subst h2
        simp [dictSet, h1, keysOf]
        try tauto
      · simp only [dictSet, if_neg h1, if_neg h2]
        simp only [keysOf, List.map_cons, List.mem_cons] at ih ⊢
        tauto

theorem containsKey_iff {α : Type} (r : List (ℚ × α)) (s : ℚ) :
    containsKey r s = true ↔ s ∈ keysOf r := by
  simp [containsKey]

theorem containsKey_dictSet_self {α : Type} (r : List (ℚ × α)) (s : ℚ) (v : α) :
    containsKey (dictSet r s v) s = true := by
  rw [containsKey_iff, mem_keysOf_dictSet]
  exact Or.inl rfl

theorem findVal_isSome_iff {α : Type} (r : List (ℚ × α)) (s : ℚ) :
    (findVal r s).isSome = true ↔ s ∈ keysOf r := by
  induction r with
  | nil => simp [findVal, keysOf]
  | cons p t ih =>
    obtain ⟨k, w⟩ := p
    by_cases h : s = k
    · simp [findVal, h, keysOf]
    · simp [findVal, h, keysOf, Ne.symm h]
      simpa [keysOf] using ih

theorem sortedKeys_dictSet {α : Type} (r : List (ℚ × α)) (s : ℚ) (v : α)
    (hs : SortedKeys r) : SortedKeys (dictSet r s v) := by
  induction r with
  | nil =>
    simp [dictSet, SortedKeys]
  | cons p t ih =>
    obtain ⟨k, w⟩ := p
    rw [SortedKeys, List.pairwise_cons] at hs
    obtain ⟨h1, h2⟩ := hs
    by_cases hlt : s < k
    · rw [dictSet, if_pos hlt]
      rw [SortedKeys, List.pairwise_cons]
      refine ⟨?_, ?_⟩
      · intro q hq
        rcases List.mem_cons.1 hq with h | h
        · subst h; exact hlt
        · exact lt_trans hlt (h1 q h)
      · rw [List.pairwise_cons]
        exact ⟨h1, h2⟩
    · by_cases heq : s = k
      · rw [dictSet, if_neg hlt, if_pos heq]
        rw [SortedKeys, List.pairwise_cons]
        subst heq
        exact ⟨h1, h2⟩
      · rw [dictSet, if_neg hlt, if_neg heq]
        rw [SortedKeys, List.pairwise_cons]
        have hk : k < s := by
          rcases lt_trichotomy s k with h | h | h
          · exact absurd h hlt
          · exact absurd h heq
          · exact h
        refine ⟨?_, ih h2⟩
        intro q hq
        have : q.1 ∈ keysOf (dictSet t s v) := by
          rw [mem_keysOf_iff]; exact ⟨q, hq, rfl⟩
        rcases (mem_keysOf_dictSet t s q.1 v).1 this with h | h
        · rw [h]; exact hk
        · rcases (mem_keysOf_iff t q.1).1 h with ⟨q', hq', hq1⟩
          rw [← hq1]; exact h1 q' hq'

theorem mem_dictSet_iff {α : Type} (r : List (ℚ × α)) (s : ℚ) (v : α)
    (hs : SortedKeys r) (p : ℚ × α) :
    p ∈ dictSet r s v ↔ p = (s, v) ∨ (p ∈ r ∧ p.1 ≠ s) := by
  induction r with
  | nil => simp [dictSet]
  | cons q t ih =>
    obtain ⟨k, w⟩ := q
    rw [SortedKeys, List.pairwise_cons] at hs
    obtain ⟨h1, h2⟩ := hs
    by_cases hlt : s < k
    · rw [dictSet, if_pos hlt]
      constructor
      · intro h
        rcases List.mem_cons.1 h with h | h
        · exact Or.inl h
        · refine Or.inr ⟨h, ?_⟩
          rcases List.mem_cons.1 h with h' | h'
          · rw [h']; exact ne_of_gt hlt
          · exact ne_of_gt (lt_trans hlt (h1 p h'))
      · intro h
        rcases h with h | ⟨h, _⟩
        · exact List.mem_cons.2 (Or.inl h)
        · exact List.mem_cons.2 (Or.inr h)
    · by_cases heq : s = k
      · subst heq
        rw [dictSet, if_neg hlt, if_pos rfl]
        constructor
        · intro h
          rcases List.mem_cons.1 h with h | h
          · exact Or.inl h
          · exact Or.inr ⟨List.mem_cons.2 (Or.inr h), ne_of_gt (h1 p h)⟩
        · intro h
          rcases h with h | ⟨h, hne⟩
          · exact List.mem_cons.2 (Or.inl h)
          · rcases List.mem_cons.1 h with h' | h'
            · exact absurd (by rw [h']) hne
            · exact List.mem_cons.2 (Or.inr h')
      · have hk : k < s := by
          rcases lt_trichotomy s k with h | h | h
          · exact absurd h hlt
          · exact absurd h heq
          · exact h
        rw [dictSet, if_neg hlt, if_neg heq]
        rw [List.mem_cons, ih h2, List.mem_cons]
        constructor
        · intro h
          rcases h with h | h | ⟨h, hne⟩
          · exact Or.inr ⟨Or.inl h, by rw [h]; exact ne_of_lt hk⟩
          · exact Or.inl h
          · exact Or.inr ⟨Or.inr h, hne⟩
        · intro h
          rcases h with h | ⟨h | h, hne⟩
          · exact Or.inr (Or.inl h)
          · exact Or.inl h
          · exact Or.inr (Or.inr ⟨h, hne⟩)

theorem le_maxKey {α : Type} (r : List (ℚ × α)) (x : ℚ)
    (hx : x ∈ keysOf r) : x ≤ maxKey r := by
  induction r with
  | nil => simp [keysOf] at hx
  | cons p t ih =>
    obtain ⟨k, w⟩ := p
    cases t with
    | nil =>
      simp [keysOf] at hx
      simp [maxKey, hx]
    | cons q u =>
      rcases List.mem_cons.1 hx with h | h
      · rw [h]; exact le_max_left _ _
      · exact le_trans (ih h) (le_max_right _ _)

theorem maxKey_mem {α : Type} (r : List (ℚ × α)) (hr : r ≠ []) :
    maxKey r ∈ keysOf r := by
  induction r with
  | nil => exact absurd rfl hr
  | cons p t ih =>
    obtain ⟨k, w⟩ := p
    cases t with
    | nil => simp [maxKey, keysOf]
    | cons q u =>
      rcases le_total (maxKey (q :: u)) k with h | h
      · rw [show maxKey ((k, w) :: q :: u) = max k (maxKey (q :: u)) from rfl,
          max_eq_left h]
        exact List.mem_cons.2 (Or.inl rfl)
      · rw [show maxKey ((k, w) :: q :: u) = max k (maxKey (q :: u)) from rfl,
          max_eq_right h]
        exact List.mem_cons.2 (Or.inr (ih (by simp)))

theorem maxKey_dictSet {α : Type} (r : List (ℚ × α)) (s : ℚ) (v : α)
    (hr : r ≠ []) (hs : s ≤ maxKey r) : maxKey (dictSet r s v) = maxKey r := by
  apply le_antisymm
  · apply le_of_not_lt
    intro hlt
    have hmem := maxKey_mem (dictSet r s v) (dictSet_ne_nil r s v)
    rcases (mem_keysOf_dictSet r s _ v).1 hmem with h | h
    · exact absurd (h ▸ hlt) (not_lt_of_le hs)
    · exact absurd hlt (not_lt_of_le (le_maxKey r _ h))
  · apply le_maxKey
    rw [mem_keysOf_dictSet]
    exact Or.inr (maxKey_mem r hr)

theorem bisectLeft_le_length {α : Type} (r : List (ℚ × α)) (s : ℚ) :
    bisectLeft r s ≤ r.length := by
  induction r with
  | nil => simp [bisectLeft]
  | cons p t ih =>
    obtain ⟨k, w⟩ := p
    by_cases h : k < s
    · simpa [bisectLeft, h] using ih
    · simp [bisectLeft, h]

theorem mem_of_getElemOpt {α : Type} :
    ∀ (l : List α) (j : ℕ) (a : α), l[j]? = some a → a ∈ l
  | b :: t, 0, a, h => by simp at h; exact h ▸ List.mem_cons.2 (Or.inl rfl)
  | b :: t, j + 1, a, h =>
    List.mem_cons.2 (Or.inr (mem_of_getElemOpt t j a (by simpa using h)))

/-- Entries strictly before the `bisect_left` index have keys below `s`. -/
theorem key_lt_of_lt_bisect {α : Type} (r : List (ℚ × α)) (s : ℚ) (j : ℕ)
    (p : ℚ × α) (hp : r[j]? = some p) (hj : j < bisectLeft r s) : p.1 < s := by
  induction r generalizing j with
  | nil => simp at hp
  | cons q t ih =>
    obtain ⟨k, w⟩ := q
    by_cases h : k < s
    · cases j with
      | zero => simp at hp; rw [← hp]; exact h
      | succ j' =>
        rw [bisectLeft, if_pos h] at hj
        exact ih j' (by simpa using hp) (Nat.lt_of_succ_lt_succ hj)
    · rw [bisectLeft, if_neg h] at hj
      exact absurd hj (Nat.not_lt_zero j)

/-- Entries at or after the `bisect_left` index have keys at or above `s`. -/
theorem le_key_of_bisect_le {α : Type} (r : List (ℚ × α)) (s : ℚ) (j : ℕ)
    (p : ℚ × α) (hs : SortedKeys r) (hp : r[j]? = some p)
    (hj : bisectLeft r s ≤ j) : s ≤ p.1 := by
  induction r generalizing j with
  | nil => simp at hp
  | cons q t ih =>
    obtain ⟨k, w⟩ := q
    rw [SortedKeys, List.pairwise_cons] at hs
    obtain ⟨h1, h2⟩ := hs
    by_cases h : k < s
    · cases j with
      | zero => rw [bisectLeft, if_pos h] at hj; exact absurd hj (by simp)
      | succ j' =>
        rw [bisectLeft, if_pos h] at hj
        exact ih j' h2 (by simpa using hp) (Nat.le_of_succ_le_succ hj)
    · cases j with
      | zero =>
        simp at hp
        rw [← hp]
        exact le_of_not_lt h
      | succ j' =>
        have hmem : p ∈ t := mem_of_getElemOpt t j' p (by simpa using hp)
        exact le_of_lt (lt_of_le_of_lt (le_of_not_lt h) (h1 p hmem))

theorem predVal_none_iff {α : Type} (r : List (ℚ × α)) (s : ℚ) :
    predVal r s = none ↔ bisectLeft r s = 0 := by
  cases r with
  | nil => simp [predVal, bisectLeft]
  | cons p t =>
    obtain ⟨k, w⟩ := p
    by_cases h : k < s <;> simp [predVal, bisectLeft, h]

theorem predVal_eq_getElem {α : Type} (r : List (ℚ × α)) (s : ℚ) (j : ℕ)
    (hj : bisectLeft r s = j + 1) :
    ∃ p : ℚ × α, r[j]? = some p ∧ predVal r s = some p.2 := by
  induction r generalizing j with
  | nil => simp [bisectLeft] at hj
  | cons q t ih =>
    obtain ⟨k, w⟩ := q
    by_cases h : k < s
    · rw [bisectLeft, if_pos h] at hj
      have hjt : bisectLeft t s = j := Nat.succ_injective hj
      cases j with
      | zero =>
        have hnone : predVal t s = none := (predVal_none_iff t s).2 hjt
        exact ⟨(k, w), by simp, by simp [predVal, h, hnone]⟩
      | succ j' =>
        obtain ⟨p, hp1, hp2⟩ := ih j' hjt
        exact ⟨p, by simpa using hp1, by simp [predVal, h, hp2]⟩
    · rw [bisectLeft, if_neg h] at hj
      exact absurd hj (by simp)

/-- When the key `s` is absent, the entry "at most `s`" and "strictly below
`s`" coincide. -/
theorem predVal_eq_intervalVal {α : Type} (r : List (ℚ × α)) (s : ℚ)
    (hs : s ∉ keysOf r) : predVal r s = intervalVal r s := by
  induction r with
  | nil => rfl
  | cons p t ih =>
    obtain ⟨k, w⟩ := p
    have hne : s ≠ k := by
      intro h
      exact hs (by simp [keysOf, h])
    have hst : s ∉ keysOf t := fun h => hs (by simp [keysOf] at h ⊢; tauto)
    have hiff : k < s ↔ k ≤ s := ⟨le_of_lt, fun h => lt_of_le_of_ne h (Ne.symm hne)⟩
    by_cases h : k < s
    · rw [predVal, if_pos h, intervalVal, if_pos (hiff.1 h), ih hst]
    · rw [predVal, if_neg h, intervalVal, if_neg (fun hc => h (hiff.2 hc))]

/-- When `s` is a key of a sorted list, `intervalVal` reads exactly the value
stored at `s`. -/
theorem intervalVal_eq_findVal {α : Type} (r : List (ℚ × α)) (s : ℚ)
    (hs : SortedKeys r) (hmem : s ∈ keysOf r) : intervalVal r s = findVal r s := by
  induction r with
  | nil => simp [keysOf] at hmem
  | cons p t ih =>
    obtain ⟨k, w⟩ := p
    rw [SortedKeys, List.pairwise_cons] at hs
    obtain ⟨h1, h2⟩ := hs
    rcases List.mem_cons.1 hmem with h | h
    · subst h
      have hnone : intervalVal t s = none := by
        cases t with
        | nil => rfl
        | cons q u =>
          have : s < q.1 := h1 q (List.mem_cons.2 (Or.inl rfl))
          rw [intervalVal, if_neg (not_le_of_lt this)]
      rw [intervalVal, if_pos le_rfl, findVal, if_pos rfl, hnone]
      rfl
    · rcases (mem_keysOf_iff t s).1 h with ⟨q, hq, hq1⟩
      have hks : k < s := hq1 ▸ h1 q hq
      have hne : s ≠ k := Ne.symm (ne_of_lt hks)
      rw [intervalVal, if_pos (le_of_lt hks), findVal, if_neg hne, ih h2 h]
      cases hfv : findVal t s with
      | none =>
        exact absurd ((findVal_isSome_iff t s).2 h) (by simp [hfv])
      | some u => simp

/-! ### The Section Registry operations

`Registry` instantiates the keyed list at `Option CrossSection`: the
designated terminal key stores Python's `None`, every other key stores a
section.  `addNode`, `insertSection` and `addSection` are line-by-line
embeddings of `MemberComplex.add_node`, `MemberComplex.insert_section` and
`MemberComplex.add_section`; a raised `ValueError` becomes an `Option.none`
result. -/

/-- The `MemberComplex.sections` dictionary: axial position to section, with
`Option.none` for the terminal sentinel. -/
abbrev Registry := List (ℚ × Option CrossSection)

/-- Embedding of `MemberComplex.add_node(s_new)`: return unchanged if the key
exists; fail (`ValueError`) when `bisect_left(s_new) - 1` underflows, i.e. no
key lies below `s_new`; otherwise store at `s_new` a copy of the value kept
at the key with index `bisect_left(s_new) - 1`. -/
def addNode {α : Type} (r : List (ℚ × α)) (s : ℚ) : Option (List (ℚ × α)) :=
  if containsKey r s then some r
  else
    match bisectLeft r s with
    | 0 => none
    | j + 1 =>
      match r[j]? with
      | none => none
      | some p => some (dictSet r s p.2)

/-- Embedding of `MemberComplex.insert_section(s0, s1, cross_section0)`:
record `bisect_left` of both ends against the original keys, add a node at
`s1` so the right neighbour keeps its old value, overwrite the straddled
original key `keys_orig[idx0]` when the two indices differ, then assign the
new section at `s0`. -/
def insertSection (r : Registry) (s0 s1 : ℚ) (c : CrossSection) :
    Option Registry :=
  let idx0 := bisectLeft r s0
  let idx1 := bisectLeft r s1
  let keysOrig := keysOf r
  match addNode r s1 with
  | none => none
  | some r1 =>
    let r2 :=
      if idx0 = idx1 then r1
      else
        match keysOrig[idx0]? with
        | none => r1
        | some k => dictSet r1 k (some c)
    some (dictSet r2 s0 (some c))

/-- Embedding of `MemberComplex.add_section(s0, s1, cross_section0)`: store
the section at `s0` and the `None` sentinel at `s1`. -/
def addSection (r : Registry) (s0 s1 : ℚ) (c : CrossSection) : Registry :=
  dictSet (dictSet r s0 (some c)) s1 none

/-- On any keyed list, the index arithmetic of `add_node` reads exactly the
value at the last key strictly below `s` (`predVal`). -/
theorem addNode_eq_predVal {α : Type} (r : List (ℚ × α)) (s : ℚ) :
    addNode r s =
      if containsKey r s then some r
      else
        match predVal r s with
        | none => none
        | some v => some (dictSet r s v) := by
  by_cases hc : containsKey r s
  · simp [addNode, hc]
  · rw [addNode, if_neg hc, if_neg hc]
    cases hb : bisectLeft r s with
    | zero =>
      rw [(predVal_none_iff r s).2 hb]
    | succ j =>
      obtain ⟨p, hp1, hp2⟩ := predVal_eq_getElem r s j hb
      simp [hp1, hp2]

/-- A sorted list's head key is its least key. -/
theorem head_key_le {α : Type} (r : List (ℚ × α)) (p : ℚ × α) (x : ℚ)
    (hs : SortedKeys (p :: r)) (hx : x ∈ keysOf (p :: r)) : p.1 ≤ x := by
  rw [SortedKeys, List.pairwise_cons] at hs
  rcases List.mem_cons.1 hx with h | h
  · exact le_of_eq h.symm
  · rcases (mem_keysOf_iff r x).1 h with ⟨q, hq, hq1⟩
    exact le_of_lt (hq1 ▸ hs.1 q hq)

/-- `add_node` succeeds whenever some key lies at or below the new position:
either the key already exists or a governing interval can donate its value. -/
theorem addNode_succeeds {α : Type} (r : List (ℚ × α)) (s : ℚ)
    (hs : SortedKeys r) (hdom : ∃ k ∈ keysOf r, k ≤ s) :
    ∃ r1, addNode r s = some r1 ∧ containsKey r1 s = true := by
  rw [addNode_eq_predVal]
  by_cases hc : containsKey r s
  · exact ⟨r, by rw [if_pos hc], hc⟩
  · obtain ⟨k, hk, hks⟩ := hdom
    have hkne : k ≠ s := by
      intro h
      exact hc ((containsKey_iff r s).2 (h ▸ hk))
    have hklt : k < s := lt_of_le_of_ne hks hkne
    cases hpv : predVal r s with
    | none =>
      exfalso
      have hb := (predVal_none_iff r s).1 hpv
      cases r with
      | nil => simp [keysOf] at hk
      | cons p t =>
        rw [bisectLeft] at hb
        by_cases h : p.1 < s
        · rw [if_pos h] at hb; exact Nat.succ_ne_zero _ hb
        · exact h (lt_of_le_of_lt (head_key_le t p k hs hk) hklt)
    | some v =>
      refine ⟨dictSet r s v, ?_, containsKey_dictSet_self r s v⟩
      rw [if_neg hc]
      try simp [hpv]

theorem bisectLeft_mono {α : Type} (r : List (ℚ × α)) (s s' : ℚ)
    (h : s ≤ s') : bisectLeft r s ≤ bisectLeft r s' := by
  induction r with
  | nil => simp [bisectLeft]
  | cons p t ih =>
    obtain ⟨k, w⟩ := p
    by_cases hk : k < s
    · rw [bisectLeft, if_pos hk, bisectLeft, if_pos (lt_of_lt_of_le hk h)]
      exact Nat.succ_le_succ ih
    · rw [bisectLeft, if_neg hk]
      exact Nat.zero_le _

theorem two_le_length_of_mem {α : Type} (l : List α) (a b : α)
    (ha : a ∈ l) (hb : b ∈ l) (hab : a ≠ b) : 2 ≤ l.length := by
  cases l with
  | nil => simp at ha
  | cons x t =>
    cases t with
    | nil =>
      simp at ha hb
      exact absurd (ha.trans hb.symm) hab
    | cons y u => simp [List.length]

theorem getElemOpt_of_mem {α : Type} :
    ∀ (l : List α) (a : α), a ∈ l → ∃ j : ℕ, l[j]? = some a
  | x :: t, a, h => by
    rcases List.mem_cons.1 h with h | h
    · exact ⟨0, by simp [h]⟩
    · obtain ⟨j, hj⟩ := getElemOpt_of_mem t a h
      exact ⟨j + 1, by simpa using hj⟩

theorem keysOf_getElemOpt {α : Type} (r : List (ℚ × α)) (j : ℕ) :
    (keysOf r)[j]? = (r[j]?).map Prod.fst := by
  simp [keysOf]

/-- A successful `add_node` either found the key present (no change) or
inserted the value of the governing interval at the new key. -/
theorem addNode_cases {α : Type} (r : List (ℚ × α)) (s : ℚ)
    (r1 : List (ℚ × α)) (h : addNode r s = some r1) :
    (containsKey r s = true ∧ r1 = r) ∨
      (containsKey r s = false ∧
        ∃ v, predVal r s = some v ∧ r1 = dictSet r s v) := by
  rw [addNode_eq_predVal] at h
  by_cases hc : containsKey r s
  · rw [if_pos hc] at h
    exact Or.inl ⟨hc, (Option.some_injective _ h).symm⟩
  · rw [if_neg hc] at h
    cases hpv : predVal r s with
    | none => rw [hpv] at h; exact absurd h (by simp)
    | some v =>
      rw [hpv] at h
      refine Or.inr ⟨by simp [hc], v, rfl, ?_⟩
      exact (Option.some_injective _ (by simpa using h)).symm

/-- Unfolding of `insert_section` once the inner `add_node` result is
known. -/
theorem insertSection_eq (r : Registry) (s0 s1 : ℚ) (c : CrossSection)
    (r1 : Registry) (h : addNode r s1 = some r1) :
    insertSection r s0 s1 c =
      some (dictSet
        (if bisectLeft r s0 = bisectLeft r s1 then r1
         else
           match (keysOf r)[bisectLeft r s0]? with
           | none => r1
           | some k => dictSet r1 k (some c))
        s0 (some c)) := by
  simp only [insertSection, h]

/-- On a sorted list the entry at any index is what keyed lookup at its key
returns. -/
theorem findVal_of_getElem {α : Type} (r : List (ℚ × α)) (j : ℕ)
    (p : ℚ × α) (hs : SortedKeys r) (hp : r[j]? = some p) :
    findVal r p.1 = some p.2 := by
  induction r generalizing j with
  | nil => simp at hp
  | cons q t ih =>
    rw [SortedKeys, List.pairwise_cons] at hs
    cases j with
    | zero =>
      simp at hp
      rw [← hp, findVal, if_pos rfl]
    | succ j' =>
      have hpt : t[j']? = some p := by simpa using hp
      have hmem : p ∈ t := mem_of_getElemOpt t j' p hpt
      have hne : p.1 ≠ q.1 := Ne.symm (ne_of_lt (hs.1 p hmem))
      rw [findVal, if_neg hne]
      exact ih j' hs.2 hpt

/-! ### Object-identity registry (for the `copy.copy` in `add_node`)

`add_node` stores `copy.copy(self.sections[keys_orig[idx]])` at the new key.
To reason about Python aliasing, this second view of the registry maps keys
to ids into a heap of section objects; `copy.copy` becomes allocation of a
fresh id carrying the same field values, and in-place mutation of a section
(`make_ghost`, the ballast `rho +=` loop) updates one heap cell. -/

/-- Registry with explicit object identity: each key stores either the
`None` sentinel or the id of a section object in `heap`. -/
structure HeapReg where
  entries : List (ℚ × Option ℕ)
  heap : List CrossSection
deriving DecidableEq, Repr

/-- All ids stored in the entries are live heap addresses. -/
def HWF (r : HeapReg) : Prop :=
  ∀ p ∈ r.entries, ∀ i : ℕ, p.2 = some i → i < r.heap.length

/-- Embedding of `MemberComplex.add_node` on the object-identity registry:
identical control flow to `addNode`, with `copy.copy` allocating a fresh
object that duplicates the donor's field values. -/
def hAddNode (r : HeapReg) (s : ℚ) : Option HeapReg :=
  if containsKey r.entries s then some r
  else
    match bisectLeft r.entries s with
    | 0 => none
    | j + 1 =>
      match r.entries[j]? with
      | none => none
      | some (_, none) => some ⟨dictSet r.entries s none, r.heap⟩
      | some (_, some i) =>
        match r.heap[i]? with
        | none => none
        | some cobj =>
          some ⟨dictSet r.entries s (some r.heap.length), r.heap ++ [cobj]⟩

/-- Observed section at key `s` (dereferencing the stored id). -/
def hView (r : HeapReg) (s : ℚ) : Option (Option CrossSection) :=
  match findVal r.entries s with
  | none => none
  | some none => some none
  | some (some i) => (r.heap[i]?).map some

/-- In-place mutation of the section object at key `s` (as in
`self.sections[s].make_ghost()` or `self.sections[s].rho += …`): the heap
cell is updated, keys and stored ids are untouched. -/
def hMutate (r : HeapReg) (s : ℚ) (f : CrossSection → CrossSection) :
    HeapReg :=
  match findVal r.entries s with
  | some (some i) =>
    match r.heap[i]? with
    | some cobj => ⟨r.entries, r.heap.set i (f cobj)⟩
    | none => r
  | _ => r

/-! ### The Registry invariant (terminal `None` sentinel) -/

/-- Embedding of the main-shell construction loop of `add_main_sections`:
`for k in range(len(s_full) - 1): add_section(s_full[k], s_full[k+1],
iprop[k])`. -/
def addSections : Registry → List ℚ → List CrossSection → Registry
  | r, a :: b :: t, c :: cs => addSections (addSection r a b c) (b :: t) cs
  | r, _, _ => r

/-- The completed main-shell partition: each grid point carries its
interval's section, the last grid point carries the `None` sentinel. -/
def partitionReg : List ℚ → List CrossSection → Registry
  | [a], [] => [(a, none)]
  | a :: t, c :: cs => (a, some c) :: partitionReg t cs
  | _, _ => []

/-- The Registry invariant: keys strictly increasing, at least one key, and
the `None` sentinel exactly at the greatest key. -/
def WFReg (r : Registry) : Prop :=
  SortedKeys r ∧ r ≠ [] ∧ ∀ p ∈ r, (p.2 = none ↔ p.1 = maxKey r)

theorem maxKey_cons_cons {α : Type} (p q : ℚ × α) (t : List (ℚ × α)) :
    maxKey (p :: q :: t) = max p.1 (maxKey (q :: t)) := by
  obtain ⟨k, w⟩ := p
  rfl

theorem dictSet_append {α : Type} (r : List (ℚ × α)) (s : ℚ) (v : α)
    (h : ∀ k ∈ keysOf r, k < s) : dictSet r s v = r ++ [(s, v)] := by
  induction r with
  | nil => rfl
  | cons p t ih =>
    obtain ⟨k, w⟩ := p
    have hk : k < s := h k (by simp [keysOf])
    rw [dictSet, if_neg (not_lt_of_le (le_of_lt hk)), if_neg (Ne.symm (ne_of_lt hk))]
    rw [ih (fun x hx => h x (by simp [keysOf] at hx ⊢; tauto))]
    rfl

theorem dictSet_replace_last {α : Type} (l : List (ℚ × α)) (b : ℚ)
    (w v : α) (h : ∀ k ∈ keysOf l, k < b) :
    dictSet (l ++ [(b, w)]) b v = l ++ [(b, v)] := by
  induction l with
  | nil => simp [dictSet]
  | cons p t ih =>
    obtain ⟨k, u⟩ := p
    have hk : k < b := h k (by simp [keysOf])
    rw [List.cons_append, dictSet, if_neg (not_lt_of_le (le_of_lt hk)),
      if_neg (Ne.symm (ne_of_lt hk)),
      ih (fun x hx => h x (by simp [keysOf] at hx ⊢; tauto))]
    rfl

theorem addSections_go (t : List ℚ) :
    ∀ (cs : List CrossSection) (done : Registry) (b : ℚ),
      (∀ k ∈ keysOf done, k < b) →
      List.Pairwise (· < ·) (b :: t) →
      t.length = cs.length →
      addSections (done ++ [(b, none)]) (b :: t) cs =
        done ++ partitionReg (b :: t) cs := by
  induction t with
  | nil =>
    intro cs done b _ _ hlen
    cases cs with
    | nil => rfl
    | cons c cs' => simp at hlen
  | cons b' t' ih =>
    intro cs done b hk hp hlen
    cases cs with
    | nil => simp at hlen
    | cons c cs' =>
      rw [List.pairwise_cons] at hp
      have hbb' : b < b' := hp.1 b' (List.mem_cons.2 (Or.inl rfl))
      have step1 : dictSet (done ++ [(b, none)]) b (some c) =
          done ++ [(b, some c)] := dictSet_replace_last done b none (some c) hk
      have hk2 : ∀ k ∈ keysOf (done ++ [(b, some c)]), k < b' := by
        intro k hkk
        rw [keysOf, List.map_append] at hkk
        rcases List.mem_append.1 hkk with h | h
        · exact lt_trans (hk k h) hbb'
        · simp at h
          rw [h]
          exact hbb'
      have step2 : dictSet (done ++ [(b, some c)]) b' none =
          (done ++ [(b, some c)]) ++ [(b', none)] :=
        dictSet_append (done ++ [(b, some c)]) b' none hk2
      have lhs : addSections (done ++ [(b, none)]) (b :: b' :: t') (c :: cs') =
          addSections ((done ++ [(b, some c)]) ++ [(b', none)]) (b' :: t') cs' := by
        rw [addSections, addSection, step1, step2]
      rw [lhs, ih cs' (done ++ [(b, some c)]) b' hk2 hp.2 (by simpa using hlen)]
      simp [partitionReg]

/-- The main-shell loop starting from the empty registry produces exactly
`partitionReg`. -/
theorem addSections_eq_partition (pts : List ℚ) (secs : List CrossSection)
    (hp : List.Pairwise (· < ·) pts) (hlen : pts.length = secs.length + 1)
    (h2 : 2 ≤ pts.length) :
    addSections [] pts secs = partitionReg pts secs := by
  match pts, secs with
  | a :: b :: t, c :: cs =>
    rw [List.pairwise_cons] at hp
    have hab : a < b := hp.1 b (List.mem_cons.2 (Or.inl rfl))
    have hins : addSection [] a b c = [(a, some c)] ++ [(b, none)] := by
      rw [addSection]
      rw [show dictSet ([] : Registry) a (some c) = [(a, some c)] from rfl]
      rw [dictSet_append [(a, some c)] b none
        (by intro k hk; simp [keysOf] at hk; rw [hk]; exact hab)]
    have hgo := addSections_go t cs [(a, some c)] b
      (by intro k hk; simp [keysOf] at hk; rw [hk]; exact hab)
      hp.2 (by simpa using hlen)
    rw [addSections, hins, hgo]
    rfl
  | a :: b :: t, [] => simp at hlen
  | [a], secs => simp at h2
  | [], secs => simp at h2

/-- `partitionReg` keys are exactly the grid points. -/
theorem keysOf_partitionReg (pts : List ℚ) (secs : List CrossSection)
    (hlen : pts.length = secs.length + 1) :
    keysOf (partitionReg pts secs) = pts := by
  induction pts generalizing secs with
  | nil => simp at hlen
  | cons a t ih =>
    cases t with
    | nil =>
      cases secs with
      | nil => rfl
      | cons c cs => simp at hlen
    | cons b t' =>
      cases secs with
      | nil => simp at hlen
      | cons c cs =>
        rw [partitionReg]
        rw [show keysOf ((a, some c) :: partitionReg (b :: t') cs) =
          a :: keysOf (partitionReg (b :: t') cs) from rfl]
        rw [ih cs (by simpa using hlen)]

theorem predVal_mem {α : Type} (r : List (ℚ × α)) (s : ℚ) (v : α)
    (h : predVal r s = some v) : ∃ k, (k, v) ∈ r ∧ k < s := by
  induction r with
  | nil => simp [predVal] at h
  | cons p t ih =>
    obtain ⟨k, w⟩ := p
    by_cases hk : k < s
    · rw [predVal, if_pos hk] at h
      cases hpv : predVal t s with
      | none =>
        rw [hpv] at h
        simp at h
        exact ⟨k, by rw [h]; exact List.mem_cons.2 (Or.inl rfl), hk⟩
      | some u =>
        rw [hpv] at h
        simp at h
        obtain ⟨k', hk', hks⟩ := ih (h ▸ hpv)
        exact ⟨k', List.mem_cons.2 (Or.inr hk'), hks⟩
    · rw [predVal, if_neg hk] at h
      exact absurd h (by simp)

/-- Writing a section at a key strictly below the greatest key preserves the
Registry invariant and the greatest key. -/
theorem WFReg_dictSet_some (r : Registry) (k : ℚ) (c : CrossSection)
    (hwf : WFReg r) (hk : k < maxKey r) :
    WFReg (dictSet r k (some c)) ∧ maxKey (dictSet r k (some c)) = maxKey r := by
  obtain ⟨hs, hne, hinv⟩ := hwf
  have hmax : maxKey (dictSet r k (some c)) = maxKey r :=
    maxKey_dictSet r k (some c) hne (le_of_lt hk)
  refine ⟨⟨sortedKeys_dictSet r k (some c) hs, dictSet_ne_nil r k (some c), ?_⟩, hmax⟩
  intro p hp
  rcases (mem_dictSet_iff r k (some c) hs p).1 hp with h | ⟨h, _⟩
  · rw [h, hmax]
    constructor
    · intro hcon
      exact absurd hcon (by simp)
    · intro hcon
      exact absurd (hcon ▸ hk) (lt_irrefl _)
  · rw [hmax]
    exact hinv p h

/-- The completed main-shell partition satisfies the Registry invariant. -/
theorem WFReg_partitionReg (pts : List ℚ) (secs : List CrossSection)
    (hp : List.Pairwise (· < ·) pts) (hlen : pts.length = secs.length + 1) :
    WFReg (partitionReg pts secs) := by
  induction pts generalizing secs with
  | nil => simp at hlen
  | cons a t ih =>
    cases t with
    | nil =>
      cases secs with
      | nil =>
        refine ⟨by simp [SortedKeys, partitionReg], by simp [partitionReg], ?_⟩
        intro p hpp
        simp [partitionReg] at hpp
        rw [hpp]
        simp [maxKey]
      | cons c cs => simp at hlen
    | cons b t' =>
      cases secs with
      | nil => simp at hlen
      | cons c cs =>
        rw [List.pairwise_cons] at hp
        obtain ⟨hwf', hne', hinv'⟩ := ih cs hp.2 (by simpa using hlen)
        have hkeys : keysOf (partitionReg (b :: t') cs) = b :: t' :=
          keysOf_partitionReg (b :: t') cs (by simpa using hlen)
        have hmaxmem : maxKey (partitionReg (b :: t') cs) ∈ b :: t' := by
          have h0 := maxKey_mem (partitionReg (b :: t') cs) hne'
          rw [hkeys] at h0
          exact h0
        have hamax : a < maxKey (partitionReg (b :: t') cs) := by
          rcases List.mem_cons.1 hmaxmem with h | h
          · rw [h]; exact hp.1 b (List.mem_cons.2 (Or.inl rfl))
          · exact hp.1 _ (List.mem_cons.2 (Or.inr h))
        obtain ⟨q, rest, hqrest⟩ : ∃ q rest, partitionReg (b :: t') cs = q :: rest := by
          cases hE : partitionReg (b :: t') cs with
          | nil => exact absurd hE hne'
          | cons q rest => exact ⟨q, rest, rfl⟩
        have hmaxeq : maxKey (partitionReg (a :: b :: t') (c :: cs)) =
            maxKey (partitionReg (b :: t') cs) := by
          rw [partitionReg, hqrest, maxKey_cons_cons, ← hqrest,
            max_eq_right (le_of_lt hamax)]
        refine ⟨?_, by rw [partitionReg]; simp, ?_⟩
        · rw [SortedKeys, partitionReg, List.pairwise_cons]
          refine ⟨?_, hwf'⟩
          intro q' hq'
          have : q'.1 ∈ keysOf (partitionReg (b :: t') cs) :=
            (mem_keysOf_iff _ _).2 ⟨q', hq', rfl⟩
          rw [hkeys] at this
          rcases List.mem_cons.1 this with h | h
          · rw [h]; exact hp.1 b (List.mem_cons.2 (Or.inl rfl))
          · exact hp.1 _ (List.mem_cons.2 (Or.inr h))
        · intro p hpp
          rw [partitionReg] at hpp
          rcases List.mem_cons.1 hpp with h | h
          · rw [h, hmaxeq]
            constructor
            · intro hcon
              exact absurd hcon (by simp)
            · intro hcon
              exact absurd (hcon ▸ hamax) (lt_irrefl _)
          · rw [hmaxeq]
            exact hinv' p h

/-- `add_node` preserves the Registry invariant for positions at or below
the greatest key. -/
theorem addNode_preserves_WF (r : Registry) (s : ℚ) (r' : Registry)
    (hwf : WFReg r) (hle : s ≤ maxKey r) (h : addNode r s = some r') :
    WFReg r' ∧ maxKey r' = maxKey r := by
  obtain ⟨hs, hne, hinv⟩ := hwf
  rcases addNode_cases r s r' h with ⟨_, heq⟩ | ⟨hcon, v, hpv, heq⟩
  · rw [heq]
    exact ⟨⟨hs, hne, hinv⟩, rfl⟩
  · have hnm : s ∉ keysOf r := by
      intro hm
      rw [(containsKey_iff r s).2 hm] at hcon
      exact absurd hcon (by simp)
    have hslt : s < maxKey r := by
      rcases lt_or_eq_of_le hle with h' | h'
      · exact h'
      · exact absurd (h' ▸ maxKey_mem r hne) hnm
    obtain ⟨k, hkmem, hks⟩ := predVal_mem r s v hpv
    have hkmax : k ≠ maxKey r := ne_of_lt (lt_trans hks hslt)
    obtain ⟨sec, hsec⟩ : ∃ sec, v = some sec := by
      cases hv : v with
      | none => exact absurd (((hinv (k, v) hkmem).1) (by rw [hv])) hkmax
      | some sec => exact ⟨sec, rfl⟩
    rw [heq, hsec]
    exact WFReg_dictSet_some r s sec ⟨hs, hne, hinv⟩ hslt

/-- `insert_section` preserves the Registry invariant when the new interval
lies below the greatest key. -/
theorem insertSection_preserves_WF (r : Registry) (s0 s1 : ℚ)
    (c : CrossSection) (r' : Registry) (hwf : WFReg r) (h01 : s0 < s1)
    (hle : s1 ≤ maxKey r) (h : insertSection r s0 s1 c = some r') :
    WFReg r' := by
  cases haddN : addNode r s1 with
  | none => rw [insertSection, haddN] at h; exact absurd h (by simp)
  | some r1 =>
    obtain ⟨hwf1, hmax1⟩ := addNode_preserves_WF r s1 r1 hwf hle haddN
    rw [insertSection_eq r s0 s1 c r1 haddN] at h
    have hr' : r' = dictSet
        (if bisectLeft r s0 = bisectLeft r s1 then r1
         else
           match (keysOf r)[bisectLeft r s0]? with
           | none => r1
           | some k => dictSet r1 k (some c))
        s0 (some c) := (Option.some_injective _ h).symm
    have hs0max : s0 < maxKey r1 := by
      rw [hmax1]
      exact lt_of_lt_of_le h01 hle
    by_cases heq : bisectLeft r s0 = bisectLeft r s1
    · rw [hr', if_pos heq]
      exact (WFReg_dictSet_some r1 s0 c hwf1 hs0max).1
    · rw [hr', if_neg heq]
      cases hkk : (keysOf r)[bisectLeft r s0]? with
      | none =>
        exact (WFReg_dictSet_some r1 s0 c hwf1 hs0max).1
      | some kk =>
        obtain ⟨p, hp, hpk⟩ : ∃ p, r[bisectLeft r s0]? = some p ∧ p.1 = kk := by
          rw [keysOf_getElemOpt] at hkk
          cases hrp : r[bisectLeft r s0]? with
          | none => rw [hrp] at hkk; simp at hkk
          | some p =>
            rw [hrp] at hkk
            exact ⟨p, rfl, by simpa using hkk⟩
        have hlt : bisectLeft r s0 < bisectLeft r s1 :=
          lt_of_le_of_ne (bisectLeft_mono r s0 s1 (le_of_lt h01)) heq
        have hkks1 : kk < s1 := hpk ▸ key_lt_of_lt_bisect r s1 _ p hp hlt
        have hkkmax : kk < maxKey r1 := by
          rw [hmax1]
          exact lt_of_lt_of_le hkks1 hle
        obtain ⟨hwf2, hmax2⟩ := WFReg_dictSet_some r1 kk c hwf1 hkkmax
        exact (WFReg_dictSet_some (dictSet r1 kk (some c)) s0 c hwf2
          (by rw [hmax2]; exact hs0max)).1

/-! ### Grid Engine: refinement in `MemberDiscretization.compute`

```
s_full = np.array([])
for k in range(s_param.size - 1):
    sref = np.linspace(s_param[k], s_param[k + 1], n_refine + 1)
    s_full = np.append(s_full, sref)
s_full = np.unique(s_full)
```
-/

/-- Embedding of `np.linspace(a, b, n + 1)`: `n + 1` equally spaced points
from `a` to `b`. -/
def linspace (a b : ℚ) (n : ℕ) : List ℚ :=
  (List.range (n + 1)).map (fun i : ℕ => a + (b - a) * (i : ℚ) / (n : ℚ))

/-- Embedding of the per-interval append loop over consecutive grid
points. -/
def sFullConcat : List ℚ → ℕ → List ℚ
  | a :: b :: t, n => linspace a b n ++ sFullConcat (b :: t) n
  | _, _ => []

/-- Remove adjacent duplicates from a sorted list. -/
def dedupAdj : List ℚ → List ℚ
  | [] => []
  | [a] => [a]
  | a :: b :: t => if a = b then dedupAdj (b :: t) else a :: dedupAdj (b :: t)

/-- Embedding of `np.unique`: sort ascending, drop duplicates. -/
def npUnique (l : List ℚ) : List ℚ :=
  dedupAdj (l.insertionSort (· ≤ ·))

/-- The full refined grid `s_full` computed by
`MemberDiscretization.compute`. -/
def sFullGrid (s : List ℚ) (n : ℕ) : List ℚ := npUnique (sFullConcat s n)

/-- Embedding of `get_nfull(npts, nref) = int(1 + nref * (npts - 1))`. -/
def getNfull (npts nref : ℕ) : ℕ := 1 + nref * (npts - 1)

/-- The `n` interior subdivision points of `(a, b]`,
`a + (b - a) * (j + 1) / n` for `j < n`. -/
def interiorPts (a b : ℚ) (n : ℕ) : List ℚ :=
  (List.range n).map (fun j : ℕ => a + (b - a) * ((j : ℚ) + 1) / (n : ℚ))

/-- Reference description of the refined grid: every original point, each
original interval split into `n` equal sub-intervals. -/
def refinedRest (a : ℚ) : List ℚ → ℕ → List ℚ
  | [], _ => []
  | b :: t, n => interiorPts a b n ++ refinedRest b t n

/-- Reference refined grid (head point plus all subdivision points). -/
def refinedGrid : List ℚ → ℕ → List ℚ
  | [], _ => []
  | a :: t, n => a :: refinedRest a t n

theorem mem_dedupAdj (l : List ℚ) (x : ℚ) : x ∈ dedupAdj l ↔ x ∈ l := by
  induction l with
  | nil => simp [dedupAdj]
  | cons a t ih =>
    cases t with
    | nil => simp [dedupAdj]
    | cons b t' =>
      by_cases h : a = b
      · rw [dedupAdj, if_pos h]
        rw [ih]
        subst h
        simp
        try tauto
      · rw [dedupAdj, if_neg h]
        simp only [List.mem_cons] at ih ⊢
        tauto

theorem pairwise_dedupAdj (l : List ℚ) (hl : List.Pairwise (· ≤ ·) l) :
    List.Pairwise (· < ·) (dedupAdj l) := by
  induction l with
  | nil => simp [dedupAdj]
  | cons a t ih =>
    cases t with
    | nil => simp [dedupAdj]
    | cons b t' =>
      rw [List.pairwise_cons] at hl
      by_cases h : a = b
      · rw [dedupAdj, if_pos h]
        exact ih hl.2
      · rw [dedupAdj, if_neg h]
        rw [List.pairwise_cons]
        refine ⟨?_, ih hl.2⟩
        intro x hx
        rw [mem_dedupAdj] at hx
        have hab : a < b := lt_of_le_of_ne (hl.1 b (List.mem_cons.2 (Or.inl rfl))) h
        rcases List.mem_cons.1 hx with h' | h'
        · rw [h']; exact hab
        · rw [List.pairwise_cons] at hl
          exact lt_of_lt_of_le hab (hl.2.1 x h')

theorem mem_npUnique (l : List ℚ) (x : ℚ) : x ∈ npUnique l ↔ x ∈ l := by
  rw [npUnique, mem_dedupAdj]
  exact List.mem_insertionSort _

theorem pairwise_npUnique (l : List ℚ) :
    List.Pairwise (· < ·) (npUnique l) :=
  pairwise_dedupAdj _ (List.sorted_insertionSort _ l)

theorem pairwiseLt_ext (l₁ : List ℚ) :
    ∀ l₂ : List ℚ, List.Pairwise (· < ·) l₁ → List.Pairwise (· < ·) l₂ →
      (∀ x, x ∈ l₁ ↔ x ∈ l₂) → l₁ = l₂ := by
  induction l₁ with
  | nil =>
    intro l₂ _ _ hm
    cases l₂ with
    | nil => rfl
    | cons a t => exact absurd ((hm a).2 (List.mem_cons.2 (Or.inl rfl))) (by simp)
  | cons a t ih =>
    intro l₂ h₁ h₂ hm
    cases l₂ with
    | nil => exact absurd ((hm a).1 (List.mem_cons.2 (Or.inl rfl))) (by simp)
    | cons a' t' =>
      rw [List.pairwise_cons] at h₁ h₂
      have haa : a = a' := by
        rcases List.mem_cons.1 ((hm a).1 (List.mem_cons.2 (Or.inl rfl))) with h | h
        · exact h
        · exfalso
          have h1 : a' < a := h₂.1 a h
          rcases List.mem_cons.1 ((hm a').2 (List.mem_cons.2 (Or.inl rfl))) with h' | h'
          · exact absurd (h' ▸ h1) (lt_irrefl _)
          · exact absurd (lt_trans h1 (h₁.1 a' h')) (lt_irrefl _)
      subst haa
      have hmt : ∀ x, x ∈ t ↔ x ∈ t' := by
        intro x
        constructor
        · intro hx
          rcases List.mem_cons.1 ((hm x).1 (List.mem_cons.2 (Or.inr hx))) with h | h
          · exact absurd (h ▸ h₁.1 x hx) (lt_irrefl _)
          · exact h
        · intro hx
          rcases List.mem_cons.1 ((hm x).2 (List.mem_cons.2 (Or.inr hx))) with h | h
          · exact absurd (h ▸ h₂.1 x hx) (lt_irrefl _)
          · exact h
      rw [ih t' h₁.2 h₂.2 hmt]

theorem length_interiorPts (a b : ℚ) (n : ℕ) :
    (interiorPts a b n).length = n := by
  rw [interiorPts, List.length_map]
  exact List.length_range n

theorem linspace_eq (a b : ℚ) (n : ℕ) :
    linspace a b n = a :: interiorPts a b n := by
  rw [linspace, List.range_succ_eq_map, List.map_cons, List.map_map]
  have h1 : List.map ((fun i : ℕ => a + (b - a) * (i : ℚ) / (n : ℚ)) ∘ Nat.succ)
      (List.range n) = interiorPts a b n := by
    rw [interiorPts]
    apply List.map_congr_left
    intro j _
    simp only [Function.comp_apply]
    push_cast
    ring
  rw [h1]
  norm_num

theorem mem_interiorPts_last (a b : ℚ) (n : ℕ) (hn : 1 ≤ n) :
    b ∈ interiorPts a b n := by
  have hn0 : ((n : ℚ)) ≠ 0 := by
    have : (0:ℚ) < n := by exact_mod_cast Nat.lt_of_lt_of_le Nat.zero_lt_one hn
    exact ne_of_gt this
  rw [interiorPts, List.mem_map]
  refine ⟨n - 1, List.mem_range.2 (by omega), ?_⟩
  have hcast : ((n - 1 : ℕ) : ℚ) = (n : ℚ) - 1 := by
    have : (1:ℕ) ≤ n := hn
    push_cast [this]
    ring
  rw [hcast]
  field_simp

theorem mem_interiorPts_bounds (a b : ℚ) (n : ℕ) (hab : a < b) (hn : 1 ≤ n)
    (x : ℚ) (hx : x ∈ interiorPts a b n) : a < x ∧ x ≤ b := by
  rw [interiorPts, List.mem_map] at hx
  obtain ⟨j, hj, hfx⟩ := hx
  rw [List.mem_range] at hj
  have hn0 : (0:ℚ) < n := by exact_mod_cast Nat.lt_of_lt_of_le Nat.zero_lt_one hn
  have hj1 : (0:ℚ) < (j:ℚ) + 1 := by positivity
  have hjn : (j:ℚ) + 1 ≤ n := by exact_mod_cast Nat.succ_le_of_lt hj
  have hba : (0:ℚ) < b - a := sub_pos.2 hab
  constructor
  · rw [← hfx]
    have hpos : 0 < (b - a) * ((j:ℚ) + 1) / n := by positivity
    linarith
  · rw [← hfx]
    have h1 : (b - a) * ((j:ℚ) + 1) / n ≤ b - a := by
      rw [div_le_iff₀ hn0]
      have := mul_le_mul_of_nonneg_left hjn (le_of_lt hba)
      linarith
    linarith

theorem pairwise_interiorPts (a b : ℚ) (n : ℕ) (hab : a < b) :
    List.Pairwise (· < ·) (interiorPts a b n) := by
  rw [interiorPts, List.pairwise_map]
  refine List.Pairwise.imp_of_mem ?_ (List.pairwise_lt_range n)
  intro j j' hj hj' hjj
  rw [List.mem_range] at hj'
  have h0 : (0:ℚ) < n := by
    have : 0 < n := by omega
    exact_mod_cast this
  have hba : (0:ℚ) < b - a := sub_pos.2 hab
  have hcast : (j:ℚ) + 1 < (j':ℚ) + 1 := by exact_mod_cast Nat.succ_lt_succ hjj
  have key : 0 < (b - a) * (((j':ℚ) + 1) - ((j:ℚ) + 1)) * (n:ℚ) :=
    mul_pos (mul_pos hba (by linarith)) h0
  have h2 : (b - a) * ((j:ℚ) + 1) / n < (b - a) * ((j':ℚ) + 1) / n := by
    rw [div_lt_div_iff₀ h0 h0]
    nlinarith [key]
  linarith

theorem pairwise_refinedRest (a : ℚ) (t : List ℚ) (n : ℕ)
    (hp : List.Pairwise (· < ·) (a :: t)) (hn : 1 ≤ n) :
    List.Pairwise (· < ·) (refinedRest a t n) ∧
      ∀ x ∈ refinedRest a t n, a < x := by
  induction t generalizing a with
  | nil => simp [refinedRest]
  | cons b t' ih =>
    rw [List.pairwise_cons] at hp
    have hab : a < b := hp.1 b (List.mem_cons.2 (Or.inl rfl))
    obtain ⟨ihp, ihb⟩ := ih b hp.2
    rw [refinedRest]
    constructor
    · rw [List.pairwise_append]
      refine ⟨pairwise_interiorPts a b n hab, ihp, ?_⟩
      intro x hx y hy
      have hxb := (mem_interiorPts_bounds a b n hab hn x hx).2
      exact lt_of_le_of_lt hxb (ihb y hy)
    · intro x hx
      rcases List.mem_append.1 hx with h | h
      · exact (mem_interiorPts_bounds a b n hab hn x h).1
      · exact lt_trans hab (ihb x h)

theorem pairwise_refinedGrid (s : List ℚ) (n : ℕ)
    (hp : List.Pairwise (· < ·) s) (hn : 1 ≤ n) :
    List.Pairwise (· < ·) (refinedGrid s n) := by
  cases s with
  | nil => simp [refinedGrid]
  | cons a t =>
    rw [refinedGrid, List.pairwise_cons]
    obtain ⟨h1, h2⟩ := pairwise_refinedRest a t n hp hn
    exact ⟨h2, h1⟩

theorem length_refinedRest (a : ℚ) (t : List ℚ) (n : ℕ) :
    (refinedRest a t n).length = n * t.length := by
  induction t generalizing a with
  | nil => simp [refinedRest]
  | cons b t' ih =>
    rw [refinedRest, List.length_append, ih b, length_interiorPts]
    simp [List.length_cons]
    ring

theorem length_refinedGrid (s : List ℚ) (n : ℕ) (hs : s ≠ []) :
    (refinedGrid s n).length = getNfull s.length n := by
  cases s with
  | nil => exact absurd rfl hs
  | cons a t =>
    rw [refinedGrid, List.length_cons, length_refinedRest, getNfull]
    simp [List.length_cons]
    ring

theorem mem_sFullConcat (n : ℕ) (hn : 1 ≤ n) :
    ∀ (t : List ℚ) (a b x : ℚ),
      (x ∈ sFullConcat (a :: b :: t) n ↔ x ∈ refinedGrid (a :: b :: t) n) := by
  intro t
  induction t with
  | nil =>
    intro a b x
    rw [show sFullConcat (a :: b :: []) n
      = linspace a b n ++ sFullConcat [b] n from rfl]
    rw [show sFullConcat [b] n = [] from rfl, List.append_nil, linspace_eq]
    rw [show refinedGrid (a :: b :: []) n
      = a :: (interiorPts a b n ++ refinedRest b [] n) from rfl]
    rw [show refinedRest b ([] : List ℚ) n = [] from rfl, List.append_nil]
  | cons c t' ih =>
    intro a b x
    rw [show sFullConcat (a :: b :: c :: t') n
      = linspace a b n ++ sFullConcat (b :: c :: t') n from rfl, linspace_eq]
    rw [show refinedGrid (a :: b :: c :: t') n
      = a :: (interiorPts a b n ++ refinedRest b (c :: t') n) from rfl]
    have hb : b ∈ interiorPts a b n := mem_interiorPts_last a b n hn
    have ihx := ih b c x
    rw [show refinedGrid (b :: c :: t') n
      = b :: refinedRest b (c :: t') n from rfl] at ihx
    simp only [List.mem_append, List.mem_cons] at ihx ⊢
    constructor
    · rintro (⟨h | h⟩ | h)
      · exact Or.inl h
      · exact Or.inr (Or.inl h)
      · rcases ihx.1 h with h | h
        · subst h
          exact Or.inr (Or.inl hb)
        · exact Or.inr (Or.inr h)
    · rintro (h | h | h)
      · exact Or.inl (Or.inl h)
      · exact Or.inl (Or.inr h)
      · exact Or.inr (ihx.2 (Or.inr h))

theorem mem_refinedGrid_of_mem (n : ℕ) (hn : 1 ≤ n) :
    ∀ (s : List ℚ) (x : ℚ), x ∈ s → x ∈ refinedGrid s n := by
  intro s
  induction s with
  | nil =>
    intro x hx
    simp at hx
  | cons a t ih =>
    intro x hx
    rcases List.mem_cons.1 hx with h | h
    · rw [h, refinedGrid]
      exact List.mem_cons.2 (Or.inl rfl)
    · cases t with
      | nil => simp at h
      | cons b t' =>
        have hxt := ih x h
        rw [show refinedGrid (b :: t') n = b :: refinedRest b t' n from rfl]
          at hxt
        rw [show refinedGrid (a :: b :: t') n
          = a :: (interiorPts a b n ++ refinedRest b t' n) from rfl]
        rcases List.mem_cons.1 hxt with h' | h'
        · subst h'
          exact List.mem_cons.2 (Or.inr (List.mem_append.2
            (Or.inl (mem_interiorPts_last a x n hn))))
        · exact List.mem_cons.2 (Or.inr (List.mem_append.2 (Or.inr h')))

theorem refinedGrid_cons_subset (n : ℕ) (hn : 1 ≤ n) (a b : ℚ) (t : List ℚ)
    (x : ℚ) (hx : x ∈ refinedGrid (b :: t) n) :
    x ∈ refinedGrid (a :: b :: t) n := by
  rw [show refinedGrid (b :: t) n = b :: refinedRest b t n from rfl] at hx
  rw [show refinedGrid (a :: b :: t) n
    = a :: (interiorPts a b n ++ refinedRest b t n) from rfl]
  rcases List.mem_cons.1 hx with h | h
  · subst h
    exact List.mem_cons.2 (Or.inr (List.mem_append.2
      (Or.inl (mem_interiorPts_last a x n hn))))
  · exact List.mem_cons.2 (Or.inr (List.mem_append.2 (Or.inr h)))

theorem subdivision_mem (n : ℕ) (hn : 1 ≤ n) :
    ∀ (s : List ℚ) (k : ℕ) (u w : ℚ), s[k]? = some u → s[k + 1]? = some w →
      ∀ j : ℕ, j ≤ n → u + (w - u) * (j:ℚ) / (n:ℚ) ∈ refinedGrid s n := by
  intro s
  induction s with
  | nil =>
    intro k u w hu hw j hj
    simp at hu
  | cons a t ih =>
    intro k u w hu hw j hj
    cases t with
    | nil =>
      cases k with
      | zero => simp at hw
      | succ k' => simp at hw
    | cons b t' =>
      cases k with
      | zero =>
        have hua : u = a := by simpa using hu.symm
        have hwb : w = b := by simpa using hw.symm
        subst hua
        subst hwb
        cases j with
        | zero =>
          rw [show refinedGrid (u :: w :: t') n
            = u :: (interiorPts u w n ++ refinedRest w t' n) from rfl]
          have : u + (w - u) * ((0:ℕ):ℚ) / (n:ℚ) = u := by
            push_cast
            ring
          rw [this]
          exact List.mem_cons.2 (Or.inl rfl)
        | succ j' =>
          rw [show refinedGrid (u :: w :: t') n
            = u :: (interiorPts u w n ++ refinedRest w t' n) from rfl]
          refine List.mem_cons.2 (Or.inr (List.mem_append.2 (Or.inl ?_)))
          rw [interiorPts, List.mem_map]
          refine ⟨j', List.mem_range.2 (by omega), ?_⟩
          push_cast
          ring
      | succ k' =>
        exact refinedGrid_cons_subset n hn a b t' _
          (ih k' u w (by simpa using hu) (by simpa using hw) j hj)

/-! ### DiscretizationYAML geometry guards

```
lthick = 0.5 * (lthick[:, :-1] + lthick[:, 1:])
outputs["section_height"] = np.diff(h_col * s_param)
outputs["wall_thickness"] = np.sum(lthick, axis=0)
if np.any(outputs["section_height"] <= 0.0): raise ValueError(...)
if np.any(outputs["wall_thickness"] <= 0.0): raise ValueError(...)
if circular and np.any(outputs["outer_diameter"] <= 0.0): raise ValueError(...)
if rectangular and np.any(side_length_a <= 0.0) or ...: raise ValueError(...)
...
cross_section_xz = 2.0 * np.trapz(wall_thickness, z)
```
-/

/-- Midpoint averages of consecutive entries
(`0.5 * (v[:-1] + v[1:])`). -/
def midAvg (row : List ℚ) : List ℚ :=
  List.zipWith (fun x y => (x + y) / 2) row row.tail

/-- Column-wise sum of equally long rows (`np.sum(…, axis=0)`). -/
def sumRows : List (List ℚ) → List ℚ
  | [] => []
  | [r] => r
  | r :: rest => List.zipWith (· + ·) r (sumRows rest)

/-- `np.diff(h_col * s_param)`: the dimensional section heights. -/
def sectionHeight (h : ℚ) (s : List ℚ) : List ℚ :=
  List.zipWith (fun x y => y - x) (s.map (h * ·)) (s.map (h * ·)).tail

/-- `wall_thickness = np.sum(0.5 * (lthick[:, :-1] + lthick[:, 1:]), axis=0)`. -/
def wallThickness (lthick : List (List ℚ)) : List ℚ :=
  sumRows (lthick.map midAvg)

/-- Outer-dimension inputs of the two member shapes. -/
inductive MemberDims
  | circ (d : List ℚ)
  | rect (a b : List ℚ)

/-- `np.any(l <= 0)`. -/
def anyNonpos (l : List ℚ) : Bool :=
  l.any (fun x => decide (x ≤ 0))

/-- Embedding of the geometry guard block of `DiscretizationYAML.compute`:
raise (`ValueError`) when any section height, wall thickness or outer
dimension is non-positive. -/
def discretizationChecks (h : ℚ) (s : List ℚ) (lthick : List (List ℚ))
    (dims : MemberDims) : Except String Unit :=
  if anyNonpos (sectionHeight h s) then
    Except.error "Section height values must be greater than zero"
  else if anyNonpos (wallThickness lthick) then
    Except.error "Wall thickness values must be greater than zero"
  else
    match dims with
    | .circ d =>
      if anyNonpos d then
        Except.error "Diameter values must be greater than zero"
      else Except.ok ()
    | .rect a b =>
      if anyNonpos a || anyNonpos b then
        Except.error "Rectangular lengths must be greater than zero"
      else Except.ok ()

/-- `np.trapz(y, x)`. -/
def trapz : List ℚ → List ℚ → ℚ
  | y0 :: y1 :: ys, x0 :: x1 :: xs =>
    (x1 - x0) * (y0 + y1) / 2 + trapz (y1 :: ys) (x1 :: xs)
  | _, _ => 0

/-- Embedding of the `cross_section_xz` computation (denominator of the
axial `load2stress` factors), including the broadcast special case for a
single section. -/
def crossSectionXZ (h zmin : ℚ) (s : List ℚ) (wall : List ℚ) : ℚ :=
  let zParam := s.map (fun si => zmin + h * si)
  let z := midAvg zParam
  if z.length = 1 then
    2 * trapz (List.replicate zParam.length (wall.headD 0)) zParam
  else
    2 * trapz wall z

/-- Some outer dimension of the member is non-positive. -/
def dimsNonpos : MemberDims → Prop
  | .circ d => ∃ x ∈ d, x ≤ 0
  | .rect a b => (∃ x ∈ a, x ≤ 0) ∨ (∃ x ∈ b, x ≤ 0)

theorem anyNonpos_iff (l : List ℚ) :
    anyNonpos l = true ↔ ∃ x ∈ l, x ≤ 0 := by
  simp [anyNonpos]

theorem trapz_nonneg (y : List ℚ) : ∀ (x : List ℚ), (∀ v ∈ y, 0 ≤ v) →
    List.Pairwise (· ≤ ·) x → 0 ≤ trapz y x := by
  induction y with
  | nil =>
    intro x _ _
    simp [trapz]
  | cons y0 ys ih =>
    intro x hy hx
    cases ys with
    | nil =>
      cases x with
      | nil => simp [trapz]
      | cons x0 xs => simp [trapz]
    | cons y1 ys' =>
      cases x with
      | nil => simp [trapz]
      | cons x0 xs =>
        cases xs with
        | nil => simp [trapz]
        | cons x1 xs' =>
          rw [trapz]
          have hx01 : x0 ≤ x1 :=
            (List.pairwise_cons.1 hx).1 x1 (List.mem_cons.2 (Or.inl rfl))
          have hy0 : 0 ≤ y0 := hy y0 (by simp)
          have hy1 : 0 ≤ y1 := hy y1 (by simp)
          have h1 : 0 ≤ (x1 - x0) * (y0 + y1) / 2 := by
            apply div_nonneg _ (by norm_num)
            exact mul_nonneg (by linarith) (by linarith)
          have h2 : 0 ≤ trapz (y1 :: ys') (x1 :: xs') :=
            ih (x1 :: xs') (fun v hv => hy v (List.mem_cons.2 (Or.inr hv)))
              (List.pairwise_cons.1 hx).2
          linarith

theorem trapz_pos (y0 y1 : ℚ) (ys : List ℚ) (x0 x1 : ℚ) (xs : List ℚ)
    (hy : ∀ v ∈ y0 :: y1 :: ys, 0 < v)
    (hx : List.Pairwise (· < ·) (x0 :: x1 :: xs)) :
    0 < trapz (y0 :: y1 :: ys) (x0 :: x1 :: xs) := by
  rw [trapz]
  have hx01 : x0 < x1 :=
    (List.pairwise_cons.1 hx).1 x1 (List.mem_cons.2 (Or.inl rfl))
  have hy0 : 0 < y0 := hy y0 (by simp)
  have hy1 : 0 < y1 := hy y1 (by simp)
  have h1 : 0 < (x1 - x0) * (y0 + y1) / 2 := by
    apply div_pos _ (by norm_num)
    exact mul_pos (by linarith) (by linarith)
  have h2 : 0 ≤ trapz (y1 :: ys) (x1 :: xs) :=
    trapz_nonneg (y1 :: ys) (x1 :: xs)
      (fun v hv => le_of_lt (hy v (List.mem_cons.2 (Or.inr hv))))
      ((List.pairwise_cons.1 hx).2.imp le_of_lt)
  linarith

theorem chain_of_diffs_pos :
    ∀ (l : List ℚ),
      (∀ v ∈ List.zipWith (fun x y => y - x) l l.tail, 0 < v) →
      List.Chain' (· < ·) l
  | [], _ => List.chain'_nil
  | [a], _ => List.chain'_singleton a
  | a :: b :: t, h => by
    rw [List.chain'_cons]
    refine ⟨?_, chain_of_diffs_pos (b :: t) ?_⟩
    · have := h (b - a) (by simp [List.zipWith])
      linarith
    · intro v hv
      exact h v (by simp [List.zipWith] at hv ⊢; tauto)

theorem chain_midAvg (l : List ℚ) (hl : List.Chain' (· < ·) l) :
    List.Chain' (· < ·) (midAvg l) := by
  induction l with
  | nil => simp [midAvg]
  | cons a t ih =>
    cases t with
    | nil => simp [midAvg]
    | cons b t' =>
      rw [List.chain'_cons] at hl
      have hmt := ih hl.2
      cases t' with
      | nil => simp [midAvg]
      | cons c t'' =>
        rw [show midAvg (a :: b :: c :: t'')
          = ((a + b) / 2) :: midAvg (b :: c :: t'') from rfl]
        rw [show midAvg (b :: c :: t'')
          = ((b + c) / 2) :: midAvg (c :: t'') from rfl] at hmt ⊢
        rw [List.chain'_cons]
        refine ⟨?_, hmt⟩
        have hbc : b < c := (List.chain'_cons.1 hl.2).1
        have hab : a < b := hl.1
        linarith

theorem exists_cons_cons {α : Type} (l : List α) (h : 2 ≤ l.length) :
    ∃ a b t, l = a :: b :: t := by
  cases l with
  | nil => simp at h
  | cons a t0 =>
    cases t0 with
    | nil => simp at h
    | cons b t => exact ⟨a, b, t, rfl⟩

theorem sumRows_length (L : ℕ) : ∀ (rs : List (List ℚ)), rs ≠ [] →
    (∀ r ∈ rs, r.length = L) → (sumRows rs).length = L
  | [], h, _ => absurd rfl h
  | [r], _, hr => hr r (by simp)
  | r :: r2 :: rest, _, hr => by
    rw [show sumRows (r :: r2 :: rest)
      = List.zipWith (· + ·) r (sumRows (r2 :: rest)) from rfl]
    rw [List.length_zipWith,
      sumRows_length L (r2 :: rest) (by simp)
        (fun x hx => hr x (List.mem_cons.2 (Or.inr hx))),
      hr r (by simp)]
    simp

theorem wallThickness_length (lt : List (List ℚ)) (L : ℕ) (hne : lt ≠ [])
    (hrows : ∀ r ∈ lt, r.length = L) :
    (wallThickness lt).length = L - 1 := by
  rw [wallThickness]
  apply sumRows_length
  · simp [hne]
  · intro r hr
    rw [List.mem_map] at hr
    obtain ⟨row, hrow, hmap⟩ := hr
    rw [← hmap, midAvg, List.length_zipWith, hrows row hrow,
      List.length_tail, hrows row hrow]
    omega

theorem chain_zParam (h zmin : ℚ) : ∀ (s : List ℚ),
    (∀ v ∈ sectionHeight h s, 0 < v) →
    List.Chain' (· < ·) (s.map (fun si => zmin + h * si))
  | [], _ => by simp
  | [a], _ => by simp
  | a :: b :: t, hsh => by
    have hdecomp : sectionHeight h (a :: b :: t)
        = (h * b - h * a) :: sectionHeight h (b :: t) := rfl
    rw [List.map_cons, List.map_cons, List.chain'_cons]
    constructor
    · have hd : 0 < h * b - h * a := hsh (h * b - h * a)
        (by rw [hdecomp]; exact List.mem_cons.2 (Or.inl rfl))
      linarith
    · exact chain_zParam h zmin (b :: t)
        (fun v hv => hsh v (by rw [hdecomp]; exact List.mem_cons.2 (Or.inr hv)))

theorem crossSectionXZ_pos (h zmin : ℚ) (s : List ℚ) (wall : List ℚ)
    (h2 : 2 ≤ s.length) (hwlen : wall.length = s.length - 1)
    (hsh : ∀ v ∈ sectionHeight h s, 0 < v)
    (hw : ∀ v ∈ wall, 0 < v) :
    0 < crossSectionXZ h zmin s wall := by
  have hzc := chain_zParam h zmin s hsh
  have hzlen : (midAvg (s.map (fun si => zmin + h * si))).length
      = s.length - 1 := by
    rw [midAvg, List.length_zipWith, List.length_tail, List.length_map]
    omega
  rw [crossSectionXZ]
  by_cases hone : (midAvg (s.map (fun si => zmin + h * si))).length = 1
  · rw [if_pos hone]
    have hslen : s.length = 2 := by omega
    obtain ⟨s0, s1, t1, hs2⟩ := exists_cons_cons s (by omega)
    have ht1 : t1 = [] := by
      rw [hs2] at hslen
      simpa using hslen
    subst ht1
    obtain ⟨w0, hw0⟩ : ∃ w0, wall = [w0] := by
      have hlw : wall.length = 1 := by omega
      cases wall with
      | nil => simp at hlw
      | cons w0 t0 =>
        cases t0 with
        | nil => exact ⟨w0, rfl⟩
        | cons _ _ => simp at hlw
    have hs01 : 0 < h * s1 - h * s0 := by
      apply hsh
      rw [hs2]
      exact List.mem_cons.2 (Or.inl rfl)
    have hw0pos : 0 < w0 := hw w0 (by rw [hw0]; simp)
    rw [hs2, hw0]
    simp [trapz, List.replicate]
    nlinarith
  · rw [if_neg hone]
    have hz2 : 2 ≤ (midAvg (s.map (fun si => zmin + h * si))).length := by
      omega
    obtain ⟨z0, z1, zs, hzdec⟩ :=
      exists_cons_cons (midAvg (s.map (fun si => zmin + h * si))) hz2
    obtain ⟨w0, w1, ws, hwdec⟩ := exists_cons_cons wall (by omega)
    have hchainz : List.Chain' (· < ·)
        (midAvg (s.map (fun si => zmin + h * si))) := chain_midAvg _ hzc
    have hpairz : List.Pairwise (· < ·) (z0 :: z1 :: zs) := by
      rw [← hzdec]
      exact List.chain'_iff_pairwise.1 hchainz
    rw [hwdec, hzdec]
    have hpos := trapz_pos w0 w1 ws z0 z1 zs
      (fun v hv => hw v (by rw [hwdec]; exact hv)) hpairz
    linarith

/-! ### Ballast segments (`MemberComplex.add_circular_ballast_sections`)

```
sinterp = np.linspace(s_ballast[k, 0], s_ballast[k, 1], 10)
zpts = np.interp(sinterp, s_full, z_full)
R_od_pts = np.interp(sinterp, s_full, R_od)
twall_pts = util.sectionalInterp(sinterp, s_full, twall)
R_id_pts = R_od_pts - twall_pts
V_pts = frustum.frustumVol(R_id_pts[:-1], R_id_pts[1:], np.diff(zpts))
V_avail[k] = V_pts.sum()
if V_ballast[k] > 0.0:
    s_end[k] = np.interp(V_ballast[k], np.cumsum(np.r_[0, V_pts]), sinterp)
...
outputs["constr_ballast_capacity"] = V_ballast / V_avail
```
-/

/-- The binary64 value of numpy's `np.pi`, as an exact rational. -/
def npPi : ℚ := 884279719003555 / 281474976710656

/-- Embedding of `np.interp(x, xp, fp)` for increasing `xp`: piecewise
linear, clamped to the first/last `fp` outside the range. -/
def npInterp (x : ℚ) : List ℚ → List ℚ → ℚ
  | [_], f0 :: _ => f0
  | x0 :: x1 :: xs, f0 :: f1 :: fs =>
    if x ≤ x0 then f0
    else if x ≤ x1 then f0 + (f1 - f0) * (x - x0) / (x1 - x0)
    else npInterp x (x1 :: xs) (f1 :: fs)
  | _, _ => 0

/-- Modelled from the spec: `util.sectionalInterp(x, xp, y)` (the file
`wisdem/commonse/utilities.py` is not part of the sources) — per-section
(interval-centred) fields take the constant value of the section containing
`x`, clamped at the ends. -/
def sectionalInterp (x : ℚ) : List ℚ → List ℚ → ℚ
  | _ :: x1 :: xs, y0 :: y1 :: ys =>
    if x < x1 then y0 else sectionalInterp x (x1 :: xs) (y1 :: ys)
  | _, y0 :: _ => y0
  | _, [] => 0

/-- Modelled from the spec: `frustum.frustumVol(rb, rt, h)` (the file
`wisdem/commonse/frustum.py` is not part of the sources) — the closed-form
frustum volume `π (h / 3) (rb² + rb·rt + rt²)`. -/
def frustumVol (rb rt h : ℚ) : ℚ :=
  npPi * (h / 3) * (rb ^ 2 + rb * rt + rt ^ 2)

/-- Division as numpy performs it on floats: a zero denominator emits only a
runtime warning and silently produces a non-finite value (∞ or NaN),
modelled as `none`. -/
def npDiv (a b : ℚ) : Option ℚ :=
  if b = 0 then none else some (a / b)

/-- `np.diff`. -/
def npDiff (l : List ℚ) : List ℚ :=
  List.zipWith (fun x y => y - x) l l.tail

/-- `np.cumsum`. -/
def cumsum (l : List ℚ) : List ℚ :=
  (l.scanl (· + ·) 0).tail

/-- Inner radii of the ballast cavity at the ten integration stations of one
ballast segment `[s0, s1]`. -/
def ballastRidPts (sFull Rod twall : List ℚ) (s0 s1 : ℚ) : List ℚ :=
  List.zipWith (fun a b => a - b)
    ((linspace s0 s1 9).map (fun x => npInterp x sFull Rod))
    ((linspace s0 s1 9).map (fun x => sectionalInterp x sFull twall))

/-- Frustum volumes of the nine sub-frusta of one ballast segment. -/
def ballastVpts (sFull zFull Rod twall : List ℚ) (s0 s1 : ℚ) : List ℚ :=
  List.zipWith (fun p dz => frustumVol p.1 p.2 dz)
    ((ballastRidPts sFull Rod twall s0 s1).zip
      (ballastRidPts sFull Rod twall s0 s1).tail)
    (npDiff ((linspace s0 s1 9).map (fun x => npInterp x sFull zFull)))

/-- `V_avail[k]`: total available cavity volume of the segment. -/
def ballastVavail (sFull zFull Rod twall : List ℚ) (s0 s1 : ℚ) : ℚ :=
  (ballastVpts sFull zFull Rod twall s0 s1).sum

/-- `s_end[k]`: non-dimensional fill level of a permanent ballast volume,
by inverse interpolation of cumulative volume (`s0` when the segment is
variable ballast). -/
def ballastSEnd (sFull zFull Rod twall : List ℚ) (s0 s1 Vb : ℚ) : ℚ :=
  if 0 < Vb then
    npInterp Vb (cumsum (0 :: ballastVpts sFull zFull Rod twall s0 s1))
      (linspace s0 s1 9)
  else s0

/-- `constr_ballast_capacity[k] = V_ballast[k] / V_avail[k]`, an unguarded
numpy division. -/
def ballastConstr (sFull zFull Rod twall : List ℚ) (s0 s1 Vb : ℚ) :
    Option ℚ :=
  npDiv Vb (ballastVavail sFull zFull Rod twall s0 s1)

/-! ### Ring-stiffener placement (`MemberComplex.add_ring_stiffener_sections`)

```
n_stiff = 0 if L_stiffener == 0.0 else int(np.floor(1 / L_stiffener))
s_stiff = (np.arange(1, n_stiff + 0.1) - 0.5) * (L_stiffener)
s_stiff = s_stiff[s_stiff > s_ghost1]
s_stiff = s_stiff[s_stiff < s_ghost2]
tol = w_flange / L
for k, s in enumerate(s_stiff):
    while np.any(np.abs(s_bulk - s) <= tol) and s > tol:
        s -= tol
    s_stiff[k] = s
s0 = s_stiff - 0.5 * w_flange / L
s1 = s_stiff + 0.5 * w_flange / L
if s0[0] < 0.0: s0[0] = 0.0; s1[0] = w_flange / L
if s1[-1] > 1.0: s0[-1] = 1 - w_flange / L; s1[-1] = 1.0
```
-/

/-- `n_stiff`: number of candidate ring stiffeners. -/
def nStiff (Lst : ℚ) : ℕ :=
  if Lst = 0 then 0 else (Int.floor (1 / Lst)).toNat

/-- Candidate stiffener stations `(k − 0.5) · L_stiffener`, `k = 1..n_stiff`. -/
def stiffCandidates (Lst : ℚ) : List ℚ :=
  (List.range (nStiff Lst)).map (fun k : ℕ => ((k : ℚ) + 1 - 1/2) * Lst)

/-- Keep stations strictly inside the non-ghost range `(s_ghost1, s_ghost2)`. -/
def ghostFilter (sg1 sg2 : ℚ) (l : List ℚ) : List ℚ :=
  (l.filter (fun s => decide (sg1 < s))).filter (fun s => decide (s < sg2))

/-- `np.any(np.abs(s_bulk - s) <= tol)`: the station collides with some
bulkhead within the tolerance. -/
def collides (sBulk : List ℚ) (tol s : ℚ) : Bool :=
  sBulk.any (fun b => decide (|b - s| ≤ tol))

/-- Fueled embedding of the deconfliction loop
`while np.any(|s_bulk - s| <= tol) and s > tol: s -= tol`. -/
def nudge (sBulk : List ℚ) (tol : ℚ) : ℕ → ℚ → ℚ
  | 0, s => s
  | fuel + 1, s =>
    if collides sBulk tol s = true ∧ tol < s then
      nudge sBulk tol fuel (s - tol)
    else s

/-- Fuel sufficient for the loop to reach its exit condition: each pass
lowers `s` by `tol` and the loop stops once `s ≤ tol`, so `⌈s/tol⌉ + 1`
passes always suffice. -/
def nudgeFuel (tol s : ℚ) : ℕ :=
  (Int.ceil (s / tol)).toNat + 1

/-- Exit value of the deconfliction loop for one station. -/
def nudged (sBulk : List ℚ) (tol s : ℚ) : ℚ :=
  nudge sBulk tol (nudgeFuel tol s) s

/-- Replace the first element of a list. -/
def setHead (l : List ℚ) (v : ℚ) : List ℚ :=
  match l with
  | [] => []
  | _ :: t => v :: t

/-- Replace the last element of a list. -/
def setLast (l : List ℚ) (v : ℚ) : List ℚ :=
  (setHead l.reverse v).reverse

/-- Result of the stiffener placement stage. -/
structure StiffenerLayout where
  sStiff : List ℚ
  s0 : List ℚ
  s1 : List ℚ
deriving Repr, DecidableEq

/-- `s0 = s_stiff - 0.5*w_flange/L`, `s1 = s_stiff + 0.5*w_flange/L`. -/
def stiffIntervalsRaw (w L : ℚ) (sStiff : List ℚ) : List ℚ × List ℚ :=
  (sStiff.map (fun s => s - w / (2 * L)), sStiff.map (fun s => s + w / (2 * L)))

/-- `if s0[0] < 0.0: s0[0] = 0.0; s1[0] = w_flange / L`. -/
def clipFirstInterval (w L : ℚ) (p : List ℚ × List ℚ) : List ℚ × List ℚ :=
  if p.1.headD 0 < 0 then (setHead p.1 0, setHead p.2 (w / L)) else p

/-- `if s1[-1] > 1.0: s0[-1] = 1 - w_flange / L; s1[-1] = 1.0`. -/
def clipLastInterval (w L : ℚ) (p : List ℚ × List ℚ) : List ℚ × List ℚ :=
  if 1 < (p.2.getLast?).getD 0 then (setLast p.1 (1 - w / L), setLast p.2 1)
  else p

/-- Embedding of the placement block of `add_ring_stiffener_sections`:
candidates, ghost filtering, bulkhead deconfliction, flange-half-width
interval ends, and clipping of the first interval at `0` and of the last
at `1`. -/
def ringStiffenerLayout (Lst w L sg1 sg2 : ℚ) (sBulk : List ℚ) :
    StiffenerLayout :=
  let sStiff := (ghostFilter sg1 sg2 (stiffCandidates Lst)).map
    (fun s => nudged sBulk (w / L) s)
  let q := clipLastInterval w L
    (clipFirstInterval w L (stiffIntervalsRaw w L sStiff))
  { sStiff := sStiff, s0 := q.1, s1 := q.2 }

theorem nudge_le (sBulk : List ℚ) (tol : ℚ) (htol : 0 < tol) :
    ∀ (fuel : ℕ) (s : ℚ), nudge sBulk tol fuel s ≤ s
  | 0, s => le_refl s
  | fuel + 1, s => by
    rw [nudge]
    by_cases h : collides sBulk tol s = true ∧ tol < s
    · rw [if_pos h]
      have h' := nudge_le sBulk tol htol fuel (s - tol)
      linarith
    · rw [if_neg h]

theorem nudged_lt (sBulk : List ℚ) (tol s : ℚ) (htol : 0 < tol)
    (hcol : collides sBulk tol s = true) (hgt : tol < s) :
    nudged sBulk tol s < s := by
  rw [nudged, nudgeFuel, nudge, if_pos ⟨hcol, hgt⟩]
  have h := nudge_le sBulk tol htol ((Int.ceil (s / tol)).toNat) (s - tol)
  linarith

theorem nudge_post (sBulk : List ℚ) (tol : ℚ) (htol : 0 < tol) :
    ∀ (fuel : ℕ) (s : ℚ), s ≤ tol * ((fuel : ℚ) + 1) →
      collides sBulk tol (nudge sBulk tol fuel s) = false ∨
        nudge sBulk tol fuel s ≤ tol
  | 0, s, hb => by
    rw [nudge]
    right
    simpa using hb
  | fuel + 1, s, hb => by
    rw [nudge]
    by_cases h : collides sBulk tol s = true ∧ tol < s
    · rw [if_pos h]
      apply nudge_post sBulk tol htol fuel (s - tol)
      push_cast at hb ⊢
      linarith
    · rw [if_neg h]
      rcases not_and_or.1 h with h' | h'
      · left
        simpa using h'
      · exact Or.inr (le_of_not_lt h')

theorem nudged_fuel_bound (tol s : ℚ) (htol : 0 < tol) :
    s ≤ tol * ((nudgeFuel tol s : ℕ) : ℚ) := by
  rw [nudgeFuel]
  push_cast
  rcases le_or_lt s 0 with hs | hs
  · have h0 : (0:ℚ) ≤ ((Int.ceil (s / tol)).toNat : ℚ) := by positivity
    nlinarith
  · have hpos : 0 < s / tol := div_pos hs htol
    have hceil : (0:ℤ) ≤ Int.ceil (s / tol) := le_of_lt (Int.ceil_pos.2 hpos)
    have hcast : ((Int.ceil (s / tol)).toNat : ℚ)
        = ((Int.ceil (s / tol) : ℤ) : ℚ) := by
      exact_mod_cast congrArg (fun z : ℤ => (z : ℚ)) (Int.toNat_of_nonneg hceil)
    rw [hcast]
    have hle : s / tol ≤ ((Int.ceil (s / tol) : ℤ) : ℚ) := Int.le_ceil _
    have hmul := mul_le_mul_of_nonneg_left hle (le_of_lt htol)
    rw [mul_div_cancel₀ s (ne_of_gt htol)] at hmul
    nlinarith

theorem nudged_post (sBulk : List ℚ) (tol s : ℚ) (htol : 0 < tol) :
    collides sBulk tol (nudged sBulk tol s) = false ∨
      nudged sBulk tol s ≤ tol := by
  apply nudge_post sBulk tol htol
  have hb := nudged_fuel_bound tol s htol
  nlinarith

theorem headOpt_setHead (l : List ℚ) (v : ℚ) (h : l ≠ []) :
    (setHead l v).head? = some v := by
  cases l with
  | nil => exact absurd rfl h
  | cons a t => rfl

theorem length_setHead (l : List ℚ) (v : ℚ) :
    (setHead l v).length = l.length := by
  cases l with
  | nil => rfl
  | cons a t => rfl

theorem getLastOpt_setHead (l : List ℚ) (v : ℚ) (h : 2 ≤ l.length) :
    (setHead l v).getLast? = l.getLast? := by
  obtain ⟨a, b, t, hE⟩ := exists_cons_cons l h
  rw [hE, show setHead (a :: b :: t) v = v :: b :: t from rfl,
    List.getLast?_cons_cons, List.getLast?_cons_cons]

theorem getLastOpt_setLast (l : List ℚ) (v : ℚ) (h : l ≠ []) :
    (setLast l v).getLast? = some v := by
  rw [setLast, List.getLast?_reverse]
  exact headOpt_setHead l.reverse v (by simpa using h)

theorem length_setLast (l : List ℚ) (v : ℚ) :
    (setLast l v).length = l.length := by
  rw [setLast, List.length_reverse, length_setHead, List.length_reverse]

theorem headOpt_setLast (l : List ℚ) (v : ℚ) (h : 2 ≤ l.length) :
    (setLast l v).head? = l.head? := by
  rw [setLast, List.head?_reverse,
    getLastOpt_setHead l.reverse v (by simpa using h), List.getLast?_reverse]

theorem headD_map (f : ℚ → ℚ) (l : List ℚ) (h : l ≠ []) :
    (l.map f).headD 0 = f (l.headD 0) := by
  cases l with
  | nil => exact absurd rfl h
  | cons a t => rfl

theorem getLastOpt_map (f : ℚ → ℚ) :
    ∀ l : List ℚ, (l.map f).getLast? = (l.getLast?).map f
  | [] => rfl
  | [a] => rfl
  | a :: b :: t => by
    rw [List.map_cons, List.map_cons, List.getLast?_cons_cons,
      List.getLast?_cons_cons, ← List.map_cons, getLastOpt_map f (b :: t)]

theorem ne_nil_of_two_le (l : List ℚ) (h : 2 ≤ l.length) : l ≠ [] := by
  intro hE
  rw [hE] at h
  simp at h

theorem clip_first_spec (w L : ℚ) (p : List ℚ × List ℚ)
    (h1 : 2 ≤ p.1.length) (h2 : 2 ≤ p.2.length)
    (hneg : p.1.headD 0 < 0) :
    (clipLastInterval w L (clipFirstInterval w L p)).1.head? = some 0 ∧
    (clipLastInterval w L (clipFirstInterval w L p)).2.head? = some (w / L) := by
  have hp1ne : p.1 ≠ [] := ne_nil_of_two_le p.1 h1
  have hp2ne : p.2 ≠ [] := ne_nil_of_two_le p.2 h2
  rw [clipFirstInterval, if_pos hneg, clipLastInterval]
  by_cases hc : 1 <
      ((((setHead p.1 0, setHead p.2 (w / L)) : List ℚ × List ℚ).2.getLast?).getD 0)
  · rw [if_pos hc]
    constructor
    · show (setLast (setHead p.1 0) (1 - w / L)).head? = some 0
      rw [headOpt_setLast _ _ (by rw [length_setHead]; exact h1),
        headOpt_setHead _ _ hp1ne]
    · show (setLast (setHead p.2 (w / L)) 1).head? = some (w / L)
      rw [headOpt_setLast _ _ (by rw [length_setHead]; exact h2),
        headOpt_setHead _ _ hp2ne]
  · rw [if_neg hc]
    exact ⟨headOpt_setHead _ _ hp1ne, headOpt_setHead _ _ hp2ne⟩

theorem clip_last_spec (w L : ℚ) (p : List ℚ × List ℚ)
    (h1 : 2 ≤ p.1.length) (h2 : 2 ≤ p.2.length)
    (hlast : 1 < (p.2.getLast?).getD 0) :
    (clipLastInterval w L (clipFirstInterval w L p)).1.getLast?
        = some (1 - w / L) ∧
    (clipLastInterval w L (clipFirstInterval w L p)).2.getLast? = some 1 := by
  have hp1ne : p.1 ≠ [] := ne_nil_of_two_le p.1 h1
  have hp2ne : p.2 ≠ [] := ne_nil_of_two_le p.2 h2
  rw [clipFirstInterval]
  by_cases hneg : p.1.headD 0 < 0
  · rw [if_pos hneg, clipLastInterval]
    have hcond : 1 <
        ((((setHead p.1 0, setHead p.2 (w / L)) : List ℚ × List ℚ).2.getLast?).getD 0) := by
      show 1 < ((setHead p.2 (w / L)).getLast?).getD 0
      rw [getLastOpt_setHead _ _ h2]
      exact hlast
    rw [if_pos hcond]
    constructor
    · show (setLast (setHead p.1 0) (1 - w / L)).getLast? = some (1 - w / L)
      exact getLastOpt_setLast _ _
        (ne_nil_of_two_le _ (by rw [length_setHead]; exact h1))
    · show (setLast (setHead p.2 (w / L)) 1).getLast? = some 1
      exact getLastOpt_setLast _ _
        (ne_nil_of_two_le _ (by rw [length_setHead]; exact h2))
  · rw [if_neg hneg, clipLastInterval, if_pos hlast]
    exact ⟨getLastOpt_setLast _ _ hp1ne, getLastOpt_setLast _ _ hp2ne⟩

end WisdemCyl

namespace WisdemCyl

/-- Sample concrete cross section used to instantiate witness statements. -/
def sampleSection : CrossSection :=
  { t := 1/20, A := 2, Asx := 1, Asy := 1, Ixx := 3, Iyy := 3, J0 := 6
    TorsC := 5, E := 200, G := 80, rho := 7850, sigy := 250
    shape := SectionShape.circ 5 }

/-- Second sample cross section, distinct from `sampleSection`. -/
def sampleSection2 : CrossSection :=
  { t := 1/10, A := 4, Asx := 2, Asy := 2, Ixx := 5, Iyy := 5, J0 := 10
    TorsC := 9, E := 210, G := 81, rho := 8500, sigy := 345
    shape := SectionShape.circ 6 }

/-- Sample object-identity registry: one section object governing `[0, 10)`
and the terminal sentinel at `10`. -/
def sampleHeapReg : HeapReg :=
  ⟨[(0, some 0), (10, none)], [sampleSection]⟩

/-- C6: one application of the ghost transform sets thickness, area, shear
areas, bending inertias, polar inertia, density and the shape dimensions
(`D`, or `a` and `b`) to the constant `1e-2`, and multiplies `E`, `G` and
`sigy` by exactly `100` relative to their values before the call. -/
theorem makeGhost_spec (c : CrossSection) (D a b : ℚ) :
    (makeGhost c).t = 1/100 ∧
    (makeGhost c).A = 1/100 ∧
    (makeGhost c).Asx = 1/100 ∧
    (makeGhost c).Asy = 1/100 ∧
    (makeGhost c).Ixx = 1/100 ∧
    (makeGhost c).Iyy = 1/100 ∧
    (makeGhost c).J0 = 1/100 ∧
    (makeGhost c).rho = 1/100 ∧
    (makeGhost c).E = 100 * c.E ∧
    (makeGhost c).G = 100 * c.G ∧
    (makeGhost c).sigy = 100 * c.sigy ∧
    (makeGhost c).shape = ghostShape c.shape ∧
    ghostShape (SectionShape.circ D) = SectionShape.circ (1/100) ∧
    ghostShape (SectionShape.rect a b) = SectionShape.rect (1/100) (1/100) := by
  refine ⟨rfl, rfl, rfl, rfl, rfl, rfl, rfl, rfl, rfl, rfl, rfl, rfl, rfl, rfl⟩

/-- C1: for a valid triple — `s0 < s1`, both at or after the first key, with
at most one pre-existing key inside `[s0, s1)` (the same-interval and
single-straddled-boundary cases the splitting semantics are defined for) —
`insert_section(s0, s1, section)` succeeds, every key of the result lying in
`[s0, s1)` (in particular `s0` itself) now stores exactly `section`, and the
key `s1` stores the section that governed position `s1` before the call, so
the interval beginning at `s1` keeps its pre-insertion properties. -/
theorem insertSection_spec (r : Registry) (s0 s1 : ℚ) (c : CrossSection)
    (hs : SortedKeys r) (h01 : s0 < s1)
    (hdom : ∃ k ∈ keysOf r, k ≤ s0)
    (hone : ((keysOf r).filter
        (fun k => decide (s0 ≤ k) && decide (k < s1))).length ≤ 1) :
    ∃ r', insertSection r s0 s1 c = some r' ∧
      SortedKeys r' ∧
      findVal r' s0 = some (some c) ∧
      (∀ k ∈ keysOf r', s0 ≤ k → k < s1 → findVal r' k = some (some c)) ∧
      findVal r' s1 = intervalVal r s1 := by
  have hdom1 : ∃ k ∈ keysOf r, k ≤ s1 := by
    obtain ⟨k, hk, hks⟩ := hdom
    exact ⟨k, hk, le_trans hks (le_of_lt h01)⟩
  obtain ⟨r1, haddN, hc1⟩ := addNode_succeeds r s1 hs hdom1
  have hr1 := addNode_cases r s1 r1 haddN
  have hP1 : SortedKeys r1 := by
    rcases hr1 with ⟨_, h⟩ | ⟨_, v, _, h⟩
    · rw [h]; exact hs
    · rw [h]; exact sortedKeys_dictSet r s1 v hs
  have hP2 : findVal r1 s1 = intervalVal r s1 := by
    rcases hr1 with ⟨hcon, h⟩ | ⟨hcon, v, hpv, h⟩
    · rw [h, ← intervalVal_eq_findVal r s1 hs ((containsKey_iff r s1).1 hcon)]
    · have hnm : s1 ∉ keysOf r := by
        intro hm
        rw [(containsKey_iff r s1).2 hm] at hcon
        exact absurd hcon (by simp)
      rw [h, findVal_dictSet_self, ← predVal_eq_intervalVal r s1 hnm, hpv]
  have hP3 : ∀ k ∈ keysOf r1, k = s1 ∨ k ∈ keysOf r := by
    intro k hk
    rcases hr1 with ⟨_, h⟩ | ⟨_, v, _, h⟩
    · exact Or.inr (h ▸ hk)
    · rw [h] at hk
      exact (mem_keysOf_dictSet r s1 k v).1 hk
  by_cases heq : bisectLeft r s0 = bisectLeft r s1
  · refine ⟨dictSet r1 s0 (some c), ?_, ?_, ?_, ?_, ?_⟩
    · rw [insertSection_eq r s0 s1 c r1 haddN, if_pos heq]
    · exact sortedKeys_dictSet _ _ _ hP1
    · exact findVal_dictSet_self _ _ _
    · intro k hk hk0 hk1
      rcases (mem_keysOf_dictSet r1 s0 k (some c)).1 hk with h | h
      · rw [h]; exact findVal_dictSet_self _ _ _
      · rcases hP3 k h with h' | h'
        · exact absurd (h' ▸ hk1) (lt_irrefl s1)
        · exfalso
          obtain ⟨p, hp, hpk⟩ := (mem_keysOf_iff r k).1 h'
          obtain ⟨j, hj⟩ := getElemOpt_of_mem r p hp
          have hj1 : j < bisectLeft r s1 := by
            by_contra hcon2
            have hle := le_key_of_bisect_le r s1 j p hs hj (le_of_not_lt hcon2)
            rw [hpk] at hle
            exact absurd hk1 (not_lt_of_le hle)
          have hj0 : j < bisectLeft r s0 := heq ▸ hj1
          have hlt0 := key_lt_of_lt_bisect r s0 j p hj hj0
          rw [hpk] at hlt0
          exact absurd hk0 (not_le_of_lt hlt0)
    · rw [findVal_dictSet_ne r1 s0 s1 (some c) (ne_of_gt h01), hP2]
  · have hlt : bisectLeft r s0 < bisectLeft r s1 :=
      lt_of_le_of_ne (bisectLeft_mono r s0 s1 (le_of_lt h01)) heq
    have hlen : bisectLeft r s0 < r.length :=
      lt_of_lt_of_le hlt (bisectLeft_le_length r s1)
    obtain ⟨p, hp⟩ : ∃ p : ℚ × Option CrossSection,
        r[bisectLeft r s0]? = some p := by
      rw [List.getElem?_eq_getElem hlen]
      exact ⟨_, rfl⟩
    have hkk : (keysOf r)[bisectLeft r s0]? = some p.1 := by
      rw [keysOf_getElemOpt, hp]
      rfl
    have hs0p : s0 ≤ p.1 := le_key_of_bisect_le r s0 _ p hs hp le_rfl
    have hps1 : p.1 < s1 := key_lt_of_lt_bisect r s1 _ p hp hlt
    have hmemp : p.1 ∈ keysOf r :=
      (mem_keysOf_iff r p.1).2 ⟨p, mem_of_getElemOpt r _ p hp, rfl⟩
    refine ⟨dictSet (dictSet r1 p.1 (some c)) s0 (some c), ?_, ?_, ?_, ?_, ?_⟩
    · rw [insertSection_eq r s0 s1 c r1 haddN, if_neg heq, hkk]
    · exact sortedKeys_dictSet _ _ _ (sortedKeys_dictSet _ _ _ hP1)
    · exact findVal_dictSet_self _ _ _
    · intro k hk hk0 hk1
      by_cases hks0 : k = s0
      · rw [hks0]; exact findVal_dictSet_self _ _ _
      · rw [findVal_dictSet_ne _ s0 k (some c) hks0]
        by_cases hkp : k = p.1
        · rw [hkp]; exact findVal_dictSet_self _ _ _
        · exfalso
          rcases (mem_keysOf_dictSet _ s0 k _).1 hk with h | h
          · exact hks0 h
          rcases (mem_keysOf_dictSet _ p.1 k _).1 h with h' | h'
          · exact hkp h'
          rcases hP3 k h' with h'' | h''
          · exact absurd (h'' ▸ hk1) (lt_irrefl s1)
          · have hkf : k ∈ (keysOf r).filter
                (fun x => decide (s0 ≤ x) && decide (x < s1)) := by
              simp [List.mem_filter, h'', hk0, hk1]
            have hpf : p.1 ∈ (keysOf r).filter
                (fun x => decide (s0 ≤ x) && decide (x < s1)) := by
              simp [List.mem_filter, hmemp, hs0p, hps1]
            have h2 := two_le_length_of_mem _ k p.1 hkf hpf hkp
            omega
    · have h10 : s1 ≠ s0 := ne_of_gt h01
      have h1p : s1 ≠ p.1 := Ne.symm (ne_of_lt hps1)
      rw [findVal_dictSet_ne _ s0 s1 _ h10, findVal_dictSet_ne _ p.1 s1 _ h1p,
        hP2]

/-- C1 witness: inserting a section over `[2, 5]` into the registry with keys
`0` and `10`. -/
theorem insertSection_spec_witness :
    ∃ r', insertSection ([(0, some sampleSection), (10, none)] : Registry)
        2 5 sampleSection2 = some r' ∧
      SortedKeys r' ∧
      findVal r' 2 = some (some sampleSection2) ∧
      (∀ k ∈ keysOf r', 2 ≤ k → k < 5 →
        findVal r' k = some (some sampleSection2)) ∧
      findVal r' 5 =
        intervalVal ([(0, some sampleSection), (10, none)] : Registry) 5 :=
  insertSection_spec [(0, some sampleSection), (10, none)] 2 5 sampleSection2
    (by simp [SortedKeys]) (by norm_num)
    ⟨0, by simp [keysOf], by norm_num⟩ (by norm_num [keysOf, List.filter])

/-- C3: `add_node(s)` fails (`OutOfRangeError`) exactly when `s` precedes
the first key; when `s` is absent and within range, the inserted node gets a
fresh copy of the section of the interval containing `s`, so mutating either
one of the two objects afterwards leaves the other's observed value
unchanged. -/
theorem hAddNode_spec (r : HeapReg) (s k0 : ℚ) (v0 : Option ℕ)
    (j i : ℕ) (pk : ℚ) (cobj : CrossSection)
    (hs : SortedKeys r.entries) (hwf : HWF r)
    (hhead : r.entries.head? = some (k0, v0)) :
    (hAddNode r s = none ↔ s < k0) ∧
    (containsKey r.entries s = false →
      bisectLeft r.entries s = j + 1 →
      r.entries[j]? = some (pk, some i) →
      r.heap[i]? = some cobj →
      ∃ r', hAddNode r s = some r' ∧
        hView r' s = some (some cobj) ∧
        hView r' pk = some (some cobj) ∧
        (∀ f, hView (hMutate r' s f) pk = hView r' pk) ∧
        (∀ f, hView (hMutate r' pk f) s = hView r' s) ∧
        (∀ f, hView (hMutate r' s f) s = some (some (f cobj)))) := by
  obtain ⟨e, t, hE⟩ : ∃ e t, r.entries = e :: t := by
    cases hE : r.entries with
    | nil => rw [hE] at hhead; simp at hhead
    | cons e t => exact ⟨e, t, rfl⟩
  have he : e = (k0, v0) := by
    rw [hE] at hhead
    simpa using hhead
  constructor
  · constructor
    · intro hnone
      by_cases hc : containsKey r.entries s
      · rw [hAddNode, if_pos hc] at hnone
        exact absurd hnone (by simp)
      · cases hb : bisectLeft r.entries s with
        | zero =>
          have hk0s : ¬ k0 < s := by
            rw [hE, he, bisectLeft] at hb
            by_contra hcon
            rw [if_pos hcon] at hb
            exact Nat.succ_ne_zero _ hb
          have hmem : k0 ∈ keysOf r.entries := by
            rw [hE, he]
            exact List.mem_cons.2 (Or.inl rfl)
          have hne : s ≠ k0 := by
            intro h
            exact hc ((containsKey_iff _ _).2 (h ▸ hmem))
          exact lt_of_le_of_ne (le_of_not_lt hk0s) hne
        | succ j' =>
          exfalso
          have hjlen : j' < r.entries.length := by
            have := bisectLeft_le_length r.entries s
            omega
          obtain ⟨p, hp⟩ : ∃ p, r.entries[j']? = some p := by
            rw [List.getElem?_eq_getElem hjlen]
            exact ⟨_, rfl⟩
          obtain ⟨pk', vv⟩ := p
          rw [hAddNode, if_neg hc, hb] at hnone
          cases vv with
          | none => simp [hp] at hnone
          | some i' =>
            have hilen2 : i' < r.heap.length :=
              hwf (pk', some i') (mem_of_getElemOpt _ j' _ hp) i' rfl
            obtain ⟨cb, hcb⟩ : ∃ cb, r.heap[i']? = some cb := by
              rw [List.getElem?_eq_getElem hilen2]
              exact ⟨_, rfl⟩
            simp [hp, hcb] at hnone
    · intro hlt
      have hnm : s ∉ keysOf r.entries := by
        intro hmem
        have hk0le : k0 ≤ s :=
          head_key_le t (k0, v0) s (by rw [hE, he] at hs; exact hs)
            (by rw [hE, he] at hmem; exact hmem)
        exact absurd hlt (not_lt_of_le hk0le)
      have hc : ¬ containsKey r.entries s = true := fun h =>
        hnm ((containsKey_iff _ _).1 h)
      have hb0 : bisectLeft r.entries s = 0 := by
        rw [hE, he, bisectLeft, if_neg (not_lt_of_le (le_of_lt hlt))]
      rw [hAddNode, if_neg hc, hb0]
  · intro hc hb hj hheap
    have hilen : i < r.heap.length := by
      by_contra hcon
      rw [List.getElem?_eq_none (le_of_not_lt hcon)] at hheap
      exact absurd hheap (by simp)
    have hmain : hAddNode r s =
        some ⟨dictSet r.entries s (some r.heap.length), r.heap ++ [cobj]⟩ := by
      rw [hAddNode, if_neg (by rw [hc]; exact fun h => absurd h (by simp)),
        hb]
      simp [hj, hheap]
    have hnm : s ∉ keysOf r.entries := by
      intro hmem
      rw [(containsKey_iff _ _).2 hmem] at hc
      exact absurd hc (by simp)
    have hpkmem : (pk, some i) ∈ r.entries :=
      mem_of_getElemOpt _ j _ hj
    have hpks : pk ≠ s := by
      intro h
      exact hnm (h ▸ (mem_keysOf_iff _ pk).2 ⟨(pk, some i), hpkmem, rfl⟩)
    have hfpk : findVal r.entries pk = some (some i) :=
      findVal_of_getElem r.entries j (pk, some i) hs hj
    have hiL : i ≠ r.heap.length := ne_of_lt hilen
    refine ⟨⟨dictSet r.entries s (some r.heap.length), r.heap ++ [cobj]⟩,
      hmain, ?_, ?_, ?_, ?_, ?_⟩
    · simp only [hView, findVal_dictSet_self, List.getElem?_concat_length]
      rfl
    · simp only [hView, findVal_dictSet_ne r.entries s pk _ hpks, hfpk]
      rw [List.getElem?_append]
      simp [hilen, hheap]
    · intro f
      have hm : hMutate
            ⟨dictSet r.entries s (some r.heap.length), r.heap ++ [cobj]⟩ s f =
          ⟨dictSet r.entries s (some r.heap.length),
            (r.heap ++ [cobj]).set r.heap.length (f cobj)⟩ := by
        rw [hMutate]
        simp only [findVal_dictSet_self, List.getElem?_concat_length]
      rw [hm]
      simp only [hView, findVal_dictSet_ne r.entries s pk _ hpks, hfpk]
      rw [List.getElem?_set_ne (Ne.symm hiL)]
    · intro f
      have hip : ((r.heap ++ [cobj])[i]?) = some cobj := by
        rw [List.getElem?_append]
        simp [hilen, hheap]
      have hm : hMutate
            ⟨dictSet r.entries s (some r.heap.length), r.heap ++ [cobj]⟩ pk f =
          ⟨dictSet r.entries s (some r.heap.length),
            (r.heap ++ [cobj]).set i (f cobj)⟩ := by
        rw [hMutate]
        simp only [findVal_dictSet_ne r.entries s pk _ hpks, hfpk, hip]
      rw [hm]
      simp only [hView, findVal_dictSet_self]
      rw [List.getElem?_set_ne hiL]
    · intro f
      have hm : hMutate
            ⟨dictSet r.entries s (some r.heap.length), r.heap ++ [cobj]⟩ s f =
          ⟨dictSet r.entries s (some r.heap.length),
            (r.heap ++ [cobj]).set r.heap.length (f cobj)⟩ := by
        rw [hMutate]
        simp only [findVal_dictSet_self, List.getElem?_concat_length]
      rw [hm]
      simp only [hView, findVal_dictSet_self]
      rw [List.getElem?_set_self]
      · rfl
      · simp

/-- C3 witness: inserting position `4` into the sample object registry. -/
theorem hAddNode_spec_witness :
    (hAddNode sampleHeapReg 4 = none ↔ (4:ℚ) < 0) ∧
    (∃ r', hAddNode sampleHeapReg 4 = some r' ∧
      hView r' 4 = some (some sampleSection) ∧
      hView r' 0 = some (some sampleSection) ∧
      (∀ f, hView (hMutate r' 4 f) 0 = hView r' 0) ∧
      (∀ f, hView (hMutate r' 0 f) 4 = hView r' 4) ∧
      (∀ f, hView (hMutate r' 4 f) 4 = some (some (f sampleSection)))) := by
  have hw := hAddNode_spec sampleHeapReg 4 0 (some 0) 0 0 0 sampleSection
    (by simp [SortedKeys, sampleHeapReg])
    (by
      intro p hp i hi
      simp [sampleHeapReg] at hp
      rcases hp with h | h
      · rw [h] at hi
        simp at hi
        simp [sampleHeapReg]
        omega
      · rw [h] at hi
        simp at hi)
    rfl
  refine ⟨hw.1, hw.2 ?_ ?_ ?_ ?_⟩
  · simp [sampleHeapReg, containsKey, keysOf]
    try norm_num
  · simp [sampleHeapReg, bisectLeft]
    try norm_num
  · rfl
  · rfl

/-- C10: the Registry invariant — exactly the greatest key carries the
`None` sentinel, every other key carries a section — holds after the initial
main-shell partition, and is preserved both by `add_node` and by
`insert_section` for positions inside the established domain, so all
non-terminal intervals always have defined section properties. -/
theorem registry_invariant (pts : List ℚ) (secs : List CrossSection)
    (hp : List.Pairwise (· < ·) pts) (hlen : pts.length = secs.length + 1)
    (h2 : 2 ≤ pts.length) :
    WFReg (addSections [] pts secs) ∧
    (∀ (r : Registry) (s : ℚ) (r' : Registry),
      WFReg r → s ≤ maxKey r → addNode r s = some r' → WFReg r') ∧
    (∀ (r : Registry) (s0 s1 : ℚ) (c : CrossSection) (r' : Registry),
      WFReg r → s0 < s1 → s1 ≤ maxKey r →
      insertSection r s0 s1 c = some r' → WFReg r') := by
  refine ⟨?_, ?_, ?_⟩
  · rw [addSections_eq_partition pts secs hp hlen h2]
    exact WFReg_partitionReg pts secs hp hlen
  · intro r s r' hwf hle h
    exact (addNode_preserves_WF r s r' hwf hle h).1
  · intro r s0 s1 c r' hwf h01 hle h
    exact insertSection_preserves_WF r s0 s1 c r' hwf h01 hle h

/-- C10 witness: the invariant on the two-point partition, after a node
insertion at `4`, and after a section insertion over `[2, 5]`. -/
theorem registry_invariant_witness :
    WFReg (addSections [] [0, 10] [sampleSection]) ∧
    WFReg [(0, some sampleSection), (4, some sampleSection), (10, none)] ∧
    WFReg [(0, some sampleSection), (2, some sampleSection2),
      (5, some sampleSection), (10, none)] := by
  have T := registry_invariant [0, 10] [sampleSection]
    (by simp; try norm_num) (by simp) (by simp)
  have hP : addSections [] [0, 10] [sampleSection] =
      [(0, some sampleSection), (10, none)] := rfl
  have hmax : maxKey ([(0, some sampleSection), (10, none)] : Registry) = 10 := by
    simp [maxKey]
    try norm_num
  refine ⟨T.1, ?_, ?_⟩
  · refine T.2.1 [(0, some sampleSection), (10, none)] 4
      [(0, some sampleSection), (4, some sampleSection), (10, none)]
      (hP ▸ T.1) (by rw [hmax]; norm_num) ?_
    rw [addNode_eq_predVal]
    norm_num [containsKey, keysOf, predVal, dictSet]
  · refine T.2.2 [(0, some sampleSection), (10, none)] 2 5 sampleSection2
      [(0, some sampleSection), (2, some sampleSection2),
        (5, some sampleSection), (10, none)]
      (hP ▸ T.1) (by norm_num) (by rw [hmax]; norm_num) ?_
    have haddN : addNode ([(0, some sampleSection), (10, none)] : Registry) 5 =
        some [(0, some sampleSection), (5, some sampleSection), (10, none)] := by
      rw [addNode_eq_predVal]
      norm_num [containsKey, keysOf, predVal, dictSet]
    rw [insertSection_eq _ 2 5 sampleSection2 _ haddN]
    norm_num [bisectLeft, dictSet]

/-- C5: for a strictly increasing control grid with at least two points and
a refinement factor `n ≥ 1`, the refined grid equals the reference refined
grid, has exactly `get_nfull = 1 + n·(npts − 1)` points, is strictly
increasing after `np.unique`, retains every original control point exactly,
and contains all `n`-fold equal subdivision points of every original
interval. -/
theorem memberDiscretization_grid_spec (s : List ℚ) (n : ℕ)
    (hs : List.Pairwise (· < ·) s) (hn : 1 ≤ n) (h2 : 2 ≤ s.length) :
    sFullGrid s n = refinedGrid s n ∧
    (sFullGrid s n).length = getNfull s.length n ∧
    List.Pairwise (· < ·) (sFullGrid s n) ∧
    (∀ x ∈ s, x ∈ sFullGrid s n) ∧
    (∀ (k : ℕ) (u w : ℚ), s[k]? = some u → s[k + 1]? = some w →
      ∀ j : ℕ, j ≤ n → u + (w - u) * (j:ℚ) / (n:ℚ) ∈ sFullGrid s n) := by
  obtain ⟨a, b, t, hst⟩ : ∃ a b t, s = a :: b :: t := by
    cases s with
    | nil => simp at h2
    | cons a t0 =>
      cases t0 with
      | nil => simp at h2
      | cons b t => exact ⟨a, b, t, rfl⟩
  have hmem : ∀ x, x ∈ sFullConcat s n ↔ x ∈ refinedGrid s n := by
    rw [hst]
    intro x
    exact mem_sFullConcat n hn t a b x
  have heq : sFullGrid s n = refinedGrid s n := by
    apply pairwiseLt_ext
    · exact pairwise_npUnique _
    · exact pairwise_refinedGrid s n hs hn
    · intro x
      rw [sFullGrid, mem_npUnique]
      exact hmem x
  refine ⟨heq, ?_, ?_, ?_, ?_⟩
  · rw [heq, length_refinedGrid s n (by rw [hst]; simp)]
  · rw [heq]
    exact pairwise_refinedGrid s n hs hn
  · intro x hx
    rw [heq]
    exact mem_refinedGrid_of_mem n hn s x hx
  · intro k u w hu hw j hj
    rw [heq]
    exact subdivision_mem n hn s k u w hu hw j hj

/-- C5 witness: refining the grid `[0, 1, 3]` with `n_refine = 2`. -/
theorem memberDiscretization_grid_spec_witness :
    sFullGrid [0, 1, 3] 2 = refinedGrid [0, 1, 3] 2 ∧
    (sFullGrid [0, 1, 3] 2).length = getNfull (3 : ℕ) 2 ∧
    List.Pairwise (· < ·) (sFullGrid [0, 1, 3] 2) ∧
    (∀ x ∈ ([0, 1, 3] : List ℚ), x ∈ sFullGrid [0, 1, 3] 2) ∧
    (∀ (k : ℕ) (u w : ℚ), ([0, 1, 3] : List ℚ)[k]? = some u →
      ([0, 1, 3] : List ℚ)[k + 1]? = some w →
      ∀ j : ℕ, j ≤ 2 → u + (w - u) * (j:ℚ) / ((2:ℕ):ℚ) ∈ sFullGrid [0, 1, 3] 2) :=
  memberDiscretization_grid_spec [0, 1, 3] 2
    (by simp [List.pairwise_cons]; try norm_num) (by norm_num) (by simp)

/-- C4: the discretization stage raises its geometry error exactly when some
section height (including the zero-height case of coincident grid points),
wall thickness, or outer dimension (diameter or rectangular side length) is
non-positive; and whenever all checks pass, the cross-section integral later
used as a divisor is strictly positive, so no zero division can occur
silently. -/
theorem discretizationYAML_checks_spec (h zmin : ℚ) (s : List ℚ)
    (lt : List (List ℚ)) (dims : MemberDims)
    (hs2 : 2 ≤ s.length) (hltne : lt ≠ [])
    (hrows : ∀ row ∈ lt, row.length = s.length) :
    ((∃ msg, discretizationChecks h s lt dims = Except.error msg) ↔
      ((∃ v ∈ sectionHeight h s, v ≤ 0) ∨
        (∃ v ∈ wallThickness lt, v ≤ 0) ∨ dimsNonpos dims)) ∧
    (discretizationChecks h s lt dims = Except.ok () →
      0 < crossSectionXZ h zmin s (wallThickness lt)) := by
  constructor
  · constructor
    · rintro ⟨msg, hmsg⟩
      by_cases h1 : anyNonpos (sectionHeight h s)
      · exact Or.inl ((anyNonpos_iff _).1 h1)
      · by_cases hw' : anyNonpos (wallThickness lt)
        · exact Or.inr (Or.inl ((anyNonpos_iff _).1 hw'))
        · refine Or.inr (Or.inr ?_)
          rw [discretizationChecks.eq_def, if_neg h1, if_neg hw'] at hmsg
          cases dims with
          | circ d =>
            by_cases h3 : anyNonpos d
            · exact (anyNonpos_iff _).1 h3
            · simp [h3] at hmsg
          | rect a b =>
            by_cases h4 : anyNonpos a
            · exact Or.inl ((anyNonpos_iff _).1 h4)
            · by_cases h5 : anyNonpos b
              · exact Or.inr ((anyNonpos_iff _).1 h5)
              · simp [h4, h5] at hmsg
    · intro hcond
      by_cases h1 : anyNonpos (sectionHeight h s)
      · exact ⟨_, by rw [discretizationChecks.eq_def, if_pos h1]⟩
      · by_cases hw' : anyNonpos (wallThickness lt)
        · exact ⟨_, by rw [discretizationChecks.eq_def, if_neg h1, if_pos hw']⟩
        · rcases hcond with hc | hc | hc
          · exact absurd ((anyNonpos_iff _).2 hc) h1
          · exact absurd ((anyNonpos_iff _).2 hc) hw'
          · cases dims with
            | circ d =>
              have h3 : anyNonpos d = true := (anyNonpos_iff d).2 hc
              refine ⟨"Diameter values must be greater than zero", ?_⟩
              rw [discretizationChecks.eq_def, if_neg h1, if_neg hw']
              simp [h3]
            | rect a b =>
              have h3 : (anyNonpos a || anyNonpos b) = true := by
                rcases hc with hc | hc
                · simp [(anyNonpos_iff a).2 hc]
                · simp [(anyNonpos_iff b).2 hc]
              refine ⟨"Rectangular lengths must be greater than zero", ?_⟩
              rw [discretizationChecks.eq_def, if_neg h1, if_neg hw']
              simp [h3]
  · intro hok
    rw [discretizationChecks.eq_def] at hok
    by_cases h1 : anyNonpos (sectionHeight h s)
    · rw [if_pos h1] at hok
      exact absurd hok (by simp)
    · rw [if_neg h1] at hok
      by_cases hw' : anyNonpos (wallThickness lt)
      · rw [if_pos hw'] at hok
        exact absurd hok (by simp)
      · have hsh : ∀ v ∈ sectionHeight h s, 0 < v := by
          intro v hv
          by_contra hle
          exact h1 ((anyNonpos_iff _).2 ⟨v, hv, le_of_not_lt hle⟩)
        have hwv : ∀ v ∈ wallThickness lt, 0 < v := by
          intro v hv
          by_contra hle
          exact hw' ((anyNonpos_iff _).2 ⟨v, hv, le_of_not_lt hle⟩)
        exact crossSectionXZ_pos h zmin s (wallThickness lt) hs2
          (wallThickness_length lt s.length hltne hrows) hsh hwv

/-- C4 witness: a two-interval member with unit layer thickness and diameter
5, with the coincident-grid zero-height failure mode checkable on the same
statement. -/
theorem discretizationYAML_checks_spec_witness :
    ((∃ msg, discretizationChecks 10 [0, 1, 2] [[1, 1, 1]]
        (MemberDims.circ [5, 5, 5]) = Except.error msg) ↔
      ((∃ v ∈ sectionHeight 10 [0, 1, 2], v ≤ 0) ∨
        (∃ v ∈ wallThickness [[1, 1, 1]], v ≤ 0) ∨
        dimsNonpos (MemberDims.circ [5, 5, 5]))) ∧
    (discretizationChecks 10 [0, 1, 2] [[1, 1, 1]]
        (MemberDims.circ [5, 5, 5]) = Except.ok () →
      0 < crossSectionXZ 10 0 [0, 1, 2] (wallThickness [[1, 1, 1]])) :=
  discretizationYAML_checks_spec 10 0 [0, 1, 2] [[1, 1, 1]]
    (MemberDims.circ [5, 5, 5]) (by simp) (by simp) (by simp)

/-- C8: for a ballast segment with positive available cavity volume whose
requested (permanent) ballast volume exceeds it, the evaluation completes
(every stage of the embedded segment computation is a total function, and
the capacity division is finite) and reports
`constr_ballast_capacity = V_ballast / V_avail` strictly greater than `1`,
flagging infeasibility downstream instead of raising. -/
theorem ballast_capacity_spec (sFull zFull Rod twall : List ℚ)
    (s0 s1 Vb : ℚ)
    (hpos : 0 < ballastVavail sFull zFull Rod twall s0 s1)
    (hex : ballastVavail sFull zFull Rod twall s0 s1 < Vb) :
    ∃ c, ballastConstr sFull zFull Rod twall s0 s1 Vb = some c ∧ 1 < c := by
  refine ⟨Vb / ballastVavail sFull zFull Rod twall s0 s1, ?_, ?_⟩
  · rw [ballastConstr, npDiv, if_neg (ne_of_gt hpos)]
  · exact (one_lt_div hpos).2 hex

/-- C8 witness: a unit segment of inner radius 1 and height 9 (capacity
`9π ≈ 28.3 m³`) asked to hold `30 m³`. -/
theorem ballast_capacity_spec_witness :
    ∃ c, ballastConstr [0, 1] [0, 9] [2, 2] [1] 0 1 30 = some c ∧ 1 < c :=
  ballast_capacity_spec [0, 1] [0, 9] [2, 2] [1] 0 1 30
    (by
      norm_num [ballastVavail, ballastVpts, ballastRidPts, linspace,
        List.range_succ, npInterp, sectionalInterp, npDiff, frustumVol, npPi])
    (by
      norm_num [ballastVavail, ballastVpts, ballastRidPts, linspace,
        List.range_succ, npInterp, sectionalInterp, npDiff, frustumVol, npPi])

/-- C7: at a ballast segment whose cavity has zero inner radius
(`R_od = twall`, wall thickness equal to the outer radius), the available
volume integrates to exactly zero, and the code then evaluates
`constr_ballast_capacity = V_ballast / V_avail` unguarded: numpy silently
produces a non-finite value (modelled `none`) with no exception, and the
fill-height interpolation also continues and returns a value — no
`DegenerateSection`-style error is raised anywhere on this path. -/
theorem ballast_zero_capacity_silent_div :
    ballastVavail [0, 1] [0, 9] [3, 3] [3] 0 1 = 0 ∧
    ballastConstr [0, 1] [0, 9] [3, 3] [3] 0 1 5 = none ∧
    ballastSEnd [0, 1] [0, 9] [3, 3] [3] 0 1 5 = 1 := by
  have hV : ballastVavail [0, 1] [0, 9] [3, 3] [3] 0 1 = 0 := by
    norm_num [ballastVavail, ballastVpts, ballastRidPts, linspace,
      List.range_succ, npInterp, sectionalInterp, npDiff, frustumVol, npPi]
  refine ⟨hV, ?_, ?_⟩
  · rw [ballastConstr, hV, npDiv]
    simp
  · norm_num [ballastSEnd, ballastVpts, ballastRidPts, linspace,
      List.range_succ, npInterp, sectionalInterp, npDiff, frustumVol, npPi,
      cumsum, List.scanl]

/-- C9 amended: in the stiffener placement the deconfliction tolerance is
the full non-dimensional flange width `w/L` (not the half-width): every
candidate that collides within `w/L` and lies strictly above `w/L` is moved
strictly downward, and each final station either no longer collides within
`w/L` or sits at or below `w/L` (stations at or below the tolerance can be
left in collision); clipping applies only at the ends: when the first
interval starts below `0` it becomes `[0, w/L]` and when the last interval
ends above `1` it becomes `[1 − w/L, 1]`. -/
theorem ringStiffener_nudge_clip_spec (Lst w L sg1 sg2 : ℚ)
    (sBulk : List ℚ) (htol : 0 < w / L) :
    (ringStiffenerLayout Lst w L sg1 sg2 sBulk).sStiff
        = (ghostFilter sg1 sg2 (stiffCandidates Lst)).map
            (fun s => nudged sBulk (w / L) s) ∧
    (∀ c, collides sBulk (w / L) c = true → w / L < c →
        nudged sBulk (w / L) c < c) ∧
    (∀ c, collides sBulk (w / L) (nudged sBulk (w / L) c) = false ∨
        nudged sBulk (w / L) c ≤ w / L) ∧
    (2 ≤ (ringStiffenerLayout Lst w L sg1 sg2 sBulk).sStiff.length →
      ((ringStiffenerLayout Lst w L sg1 sg2 sBulk).sStiff.headD 0)
          - w / (2 * L) < 0 →
      (ringStiffenerLayout Lst w L sg1 sg2 sBulk).s0.head? = some 0 ∧
      (ringStiffenerLayout Lst w L sg1 sg2 sBulk).s1.head? = some (w / L)) ∧
    (2 ≤ (ringStiffenerLayout Lst w L sg1 sg2 sBulk).sStiff.length →
      1 < (((ringStiffenerLayout Lst w L sg1 sg2 sBulk).sStiff.getLast?).getD 0)
          + w / (2 * L) →
      (ringStiffenerLayout Lst w L sg1 sg2 sBulk).s0.getLast?
          = some (1 - w / L) ∧
      (ringStiffenerLayout Lst w L sg1 sg2 sBulk).s1.getLast? = some 1) := by
  refine ⟨rfl, ?_, ?_, ?_, ?_⟩
  · intro c hcol hgt
    exact nudged_lt sBulk (w / L) c htol hcol hgt
  · intro c
    exact nudged_post sBulk (w / L) c htol
  · intro hlen hneg
    have hlen' : 2 ≤ ((ghostFilter sg1 sg2 (stiffCandidates Lst)).map
        (fun s => nudged sBulk (w / L) s)).length := hlen
    have hneg2 : (((ghostFilter sg1 sg2 (stiffCandidates Lst)).map
        (fun s => nudged sBulk (w / L) s)).headD 0) - w / (2 * L) < 0 := hneg
    have hSSne : (ghostFilter sg1 sg2 (stiffCandidates Lst)).map
        (fun s => nudged sBulk (w / L) s) ≠ [] :=
      ne_nil_of_two_le _ hlen'
    have h1 : 2 ≤ (stiffIntervalsRaw w L
        ((ghostFilter sg1 sg2 (stiffCandidates Lst)).map
          (fun s => nudged sBulk (w / L) s))).1.length := by
      rw [stiffIntervalsRaw]
      show 2 ≤ (((ghostFilter sg1 sg2 (stiffCandidates Lst)).map
        (fun s => nudged sBulk (w / L) s)).map
          (fun s => s - w / (2 * L))).length
      rw [List.length_map]
      exact hlen'
    have h2 : 2 ≤ (stiffIntervalsRaw w L
        ((ghostFilter sg1 sg2 (stiffCandidates Lst)).map
          (fun s => nudged sBulk (w / L) s))).2.length := by
      rw [stiffIntervalsRaw]
      show 2 ≤ (((ghostFilter sg1 sg2 (stiffCandidates Lst)).map
        (fun s => nudged sBulk (w / L) s)).map
          (fun s => s + w / (2 * L))).length
      rw [List.length_map]
      exact hlen'
    have hneg' : (stiffIntervalsRaw w L
        ((ghostFilter sg1 sg2 (stiffCandidates Lst)).map
          (fun s => nudged sBulk (w / L) s))).1.headD 0 < 0 := by
      rw [stiffIntervalsRaw]
      show (((ghostFilter sg1 sg2 (stiffCandidates Lst)).map
        (fun s => nudged sBulk (w / L) s)).map
          (fun s => s - w / (2 * L))).headD 0 < 0
      rw [headD_map _ _ hSSne]
      exact hneg2
    exact clip_first_spec w L _ h1 h2 hneg'
  · intro hlen hlast
    have hlen' : 2 ≤ ((ghostFilter sg1 sg2 (stiffCandidates Lst)).map
        (fun s => nudged sBulk (w / L) s)).length := hlen
    have hlast2 : 1 < ((((ghostFilter sg1 sg2 (stiffCandidates Lst)).map
        (fun s => nudged sBulk (w / L) s)).getLast?).getD 0)
          + w / (2 * L) := hlast
    have hSSne : (ghostFilter sg1 sg2 (stiffCandidates Lst)).map
        (fun s => nudged sBulk (w / L) s) ≠ [] :=
      ne_nil_of_two_le _ hlen'
    have h1 : 2 ≤ (stiffIntervalsRaw w L
        ((ghostFilter sg1 sg2 (stiffCandidates Lst)).map
          (fun s => nudged sBulk (w / L) s))).1.length := by
      rw [stiffIntervalsRaw]
      show 2 ≤ (((ghostFilter sg1 sg2 (stiffCandidates Lst)).map
        (fun s => nudged sBulk (w / L) s)).map
          (fun s => s - w / (2 * L))).length
      rw [List.length_map]
      exact hlen'
    have h2 : 2 ≤ (stiffIntervalsRaw w L
        ((ghostFilter sg1 sg2 (stiffCandidates Lst)).map
          (fun s => nudged sBulk (w / L) s))).2.length := by
      rw [stiffIntervalsRaw]
      show 2 ≤ (((ghostFilter sg1 sg2 (stiffCandidates Lst)).map
        (fun s => nudged sBulk (w / L) s)).map
          (fun s => s + w / (2 * L))).length
      rw [List.length_map]
      exact hlen'
    have hlast' : 1 < ((stiffIntervalsRaw w L
        ((ghostFilter sg1 sg2 (stiffCandidates Lst)).map
          (fun s => nudged sBulk (w / L) s))).2.getLast?).getD 0 := by
      rw [stiffIntervalsRaw]
      show 1 < ((((ghostFilter sg1 sg2 (stiffCandidates Lst)).map
        (fun s => nudged sBulk (w / L) s)).map
          (fun s => s + w / (2 * L))).getLast?).getD 0
      rw [getLastOpt_map]
      obtain ⟨g, hg⟩ : ∃ g, ((ghostFilter sg1 sg2 (stiffCandidates Lst)).map
          (fun s => nudged sBulk (w / L) s)).getLast? = some g := by
        cases hE : ((ghostFilter sg1 sg2 (stiffCandidates Lst)).map
            (fun s => nudged sBulk (w / L) s)).getLast? with
        | none => exact absurd (List.getLast?_eq_none_iff.1 hE) hSSne
        | some g => exact ⟨g, rfl⟩
      rw [hg] at hlast2
      rw [hg]
      show 1 < g + w / (2 * L)
      simpa using hlast2
    exact clip_last_spec w L _ h1 h2 hlast'

/-- C9 amended witness: two candidate stiffeners with spacing `0.4`, flange
width `0.1`, a bulkhead at `0.6`. -/
theorem ringStiffener_nudge_clip_spec_witness :
    (ringStiffenerLayout (2/5) (1/10) 1 0 1 [3/5]).sStiff
        = (ghostFilter 0 1 (stiffCandidates (2/5))).map
            (fun s => nudged [3/5] ((1:ℚ)/10 / 1) s) ∧
    (∀ c, collides [3/5] ((1:ℚ)/10 / 1) c = true → (1:ℚ)/10 / 1 < c →
        nudged [3/5] ((1:ℚ)/10 / 1) c < c) ∧
    (∀ c, collides [3/5] ((1:ℚ)/10 / 1)
          (nudged [3/5] ((1:ℚ)/10 / 1) c) = false ∨
        nudged [3/5] ((1:ℚ)/10 / 1) c ≤ (1:ℚ)/10 / 1) ∧
    (2 ≤ (ringStiffenerLayout (2/5) (1/10) 1 0 1 [3/5]).sStiff.length →
      ((ringStiffenerLayout (2/5) (1/10) 1 0 1 [3/5]).sStiff.headD 0)
          - (1:ℚ)/10 / (2 * 1) < 0 →
      (ringStiffenerLayout (2/5) (1/10) 1 0 1 [3/5]).s0.head? = some 0 ∧
      (ringStiffenerLayout (2/5) (1/10) 1 0 1 [3/5]).s1.head?
          = some ((1:ℚ)/10 / 1)) ∧
    (2 ≤ (ringStiffenerLayout (2/5) (1/10) 1 0 1 [3/5]).sStiff.length →
      1 < (((ringStiffenerLayout (2/5) (1/10) 1 0 1 [3/5]).sStiff.getLast?).getD 0)
          + (1:ℚ)/10 / (2 * 1) →
      (ringStiffenerLayout (2/5) (1/10) 1 0 1 [3/5]).s0.getLast?
          = some (1 - (1:ℚ)/10 / 1) ∧
      (ringStiffenerLayout (2/5) (1/10) 1 0 1 [3/5]).s1.getLast? = some 1) :=
  ringStiffener_nudge_clip_spec (2/5) (1/10) 1 0 1 [3/5] (by norm_num)

/-- C9 counterexample: flange width `0.1` (`L = 1`), stiffener spacing
`0.08`, one bulkhead at `0`.  The first candidate `0.04` collides with the
bulkhead within the flange half-width `0.05`, but lies at or below the
code's loop threshold `tol = w/L = 0.1`, so the deconfliction loop exits
immediately: the station is not moved at all and still collides within the
half-width — the claim that every candidate colliding within the
half-width tolerance is nudged away from the bulkhead is false. -/
theorem ringStiffener_claim_counterexample :
    ¬ (∀ (i : ℕ) (c s : ℚ),
        (ghostFilter 0 1 (stiffCandidates (2/25)))[i]? = some c →
        ((ringStiffenerLayout (2/25) (1/10) 1 0 1 [0]).sStiff)[i]? = some s →
        (∃ b ∈ ([0] : List ℚ), |b - c| ≤ (1/10) / (2 * 1)) →
        (s ≠ c ∨ ¬ ∃ b ∈ ([0] : List ℚ), |b - s| ≤ (1/10) / (2 * 1))) := by
  intro hclaim
  have hnst : nStiff (2/25) = 12 := by
    rw [nStiff, if_neg (by norm_num)]
    norm_num
    rfl
  have hcand : (ghostFilter 0 1 (stiffCandidates (2/25)))[(0:ℕ)]? = some (1/25) := by
    rw [stiffCandidates, hnst]
    norm_num [ghostFilter, List.range_succ, List.filter]
  have hnud : nudged [0] ((1:ℚ)/10 / 1) (1/25) = 1/25 := by
    have hc2 : Int.ceil ((1:ℚ)/25 / ((1:ℚ)/10 / 1)) = 1 := by
      rw [Int.ceil_eq_iff]
      norm_num
    have hfuel : nudgeFuel ((1:ℚ)/10 / 1) (1/25) = 2 := by
      rw [nudgeFuel, hc2]
      rfl
    have hcondF : ¬ (collides [0] ((1:ℚ)/10 / 1) (1/25) = true ∧
        (1:ℚ)/10 / 1 < 1/25) := by
      rintro ⟨-, h⟩
      norm_num at h
    rw [nudged, hfuel, show (2:ℕ) = 1 + 1 from rfl, nudge, if_neg hcondF]
  have hstiff : ((ringStiffenerLayout (2/25) (1/10) 1 0 1 [0]).sStiff)[(0:ℕ)]?
      = some (1/25) := by
    show (((ghostFilter 0 1 (stiffCandidates (2/25))).map
      (fun s => nudged [0] ((1:ℚ)/10 / 1) s)))[(0:ℕ)]? = some (1/25)
    rw [List.getElem?_map, hcand]
    show some (nudged [0] ((1:ℚ)/10 / 1) (1/25)) = some (1/25)
    rw [hnud]
  have hcol : ∃ b ∈ ([0] : List ℚ), |b - (1/25 : ℚ)| ≤ (1/10) / (2 * 1) := by
    refine ⟨0, by simp, ?_⟩
    rw [abs_le]
    constructor <;> norm_num
  rcases hclaim 0 (1/25) (1/25) hcand hstiff hcol with h | h
  · exact h rfl
  · exact h hcol

/-- C2: on a Registry holding at least one key at or below `s`, `add_node(s)`
succeeds and is idempotent: running it a second time on the result changes
nothing. -/
theorem addNode_idempotent (r : Registry) (s : ℚ)
    (hs : SortedKeys r) (hdom : ∃ k ∈ keysOf r, k ≤ s) :
    (addNode r s).isSome = true ∧
      (addNode r s).bind (fun r1 => addNode r1 s) = addNode r s := by
  obtain ⟨r1, h1, hc1⟩ := addNode_succeeds r s hs hdom
  refine ⟨by simp [h1], ?_⟩
  rw [h1, Option.some_bind, addNode_eq_predVal, if_pos hc1]

/-- C2 witness: idempotence of `add_node` at a two-key registry and an
interior position. -/
theorem addNode_idempotent_witness :
    (addNode ([(0, some sampleSection), (1, none)] : Registry) (1/2)).isSome
        = true ∧
      (addNode ([(0, some sampleSection), (1, none)] : Registry) (1/2)).bind
          (fun r1 => addNode r1 (1/2)) =
        addNode ([(0, some sampleSection), (1, none)] : Registry) (1/2) :=
  addNode_idempotent [(0, some sampleSection), (1, none)] (1/2)
    (by simp [SortedKeys]) ⟨0, by simp [keysOf], by norm_num⟩

end WisdemCyl
